import Mathlib

/-! # CPU stress harness (`workload.cpp`): embedding and verified properties

The class `CPUStressTest` is embedded shallowly.

* `int` and `long long` values are mathematical integers; every signed 64-bit
  addition of the source goes through `wrapInt64`, every `int` addition whose
  result may leave the 32-bit range goes through `wrapInt32`.
* `std::vector` is a `List`; `operator[]` is a checked read or write that
  yields `Fault.outOfRange` where the source has undefined behaviour.
* A loop is a recursive function on an iteration budget that still evaluates
  the guard of the source at every step.  The entry point supplies a budget;
  `Fault.outOfFuel` is returned when the guard still holds after the budget is
  used up, so a result `Except.ok v` means that the loop left through its guard
  (or through `break`).
* Loop counters that start at a non-negative constant and only increase are
  natural numbers.
* A `double` of `printResults` is the rational number it denotes; every conversion
  to `double` and every `double` division is rounded to 53 significant bits, to
  nearest with ties to even (`roundDouble`).  `static_cast<long long>` of a
  `double` is `castInt64`, which has a value only for an integer part inside the
  range of `long long`.
-/

set_option linter.unusedVariables false

namespace CPUStressTest

/-- Ways in which an execution of the embedded code can fail to produce a value. -/
inductive Fault
  /-- the iteration budget of the model ended while the loop guard still held -/
  | outOfFuel
  /-- `operator[]` applied outside the bounds of a vector -/
  | outOfRange
  /-- a vector was requested with a size that is negative as an `int` -/
  | badAlloc
  /-- a division whose divisor is zero -/
  | divByZero
  deriving DecidableEq, Repr

deriving instance DecidableEq for Except

/-- Largest value of a 32-bit `int`. -/
def INT_MAX : Int := 2147483647

/-- Largest value of a 64-bit `long long`. -/
def LLONG_MAX : Int := 9223372036854775807

/-- Two's-complement reduction of an integer to the signed 32-bit range. -/
def wrapInt32 (x : Int) : Int :=
  (x + 2147483648) % 4294967296 - 2147483648

/-- Two's-complement reduction of an integer to the signed 64-bit range. -/
def wrapInt64 (x : Int) : Int :=
  (x + 9223372036854775808) % 18446744073709551616 - 9223372036854775808

/-! ## `calculatePrimes` (lines 19-34) -/

/-- The loop guard `i <= std::sqrt(n)` for `int` values `i ≥ 0` and `0 ≤ n < 2^31`.
`std::sqrt(n)` is the correctly rounded double square root; every integer below `2^31`
and its integer square root are doubles, rounding is monotone, and the gap between
`sqrt (r*r - 1)` and `r` exceeds the rounding error for `r ≤ 2^16`, so the comparison
holds exactly when `i * i ≤ n`, i.e. when `i` is at most the integer square root. -/
def leSqrt (i n : Nat) : Bool :=
  decide (i * i ≤ n)

/-- Inner loop of `calculatePrimes`:
`for (int i = 2; i <= std::sqrt(n); i++) { if (n % i == 0) { isPrime = false; break; } }`.
The result is the value of `isPrime` when the loop is left. -/
def trialDivision (n : Nat) : Nat → Nat → Except Fault Bool
  | 0, i => if leSqrt i n then .error .outOfFuel else .ok true
  | fuel + 1, i =>
    if leSqrt i n then
      if n % i = 0 then .ok false
      else trialDivision n fuel (i + 1)
    else .ok true

/-- Outer loop of `calculatePrimes`: `for (int n = 2; n < limit; n++) { ... }` with the
accumulator `primeSum` (a `long long`, so `primeSum += n` wraps at 64 bits). -/
def primeLoop (limit : Int) : Nat → Nat → Int → Except Fault Int
  | 0, n, primeSum => if (n : Int) < limit then .error .outOfFuel else .ok primeSum
  | fuel + 1, n, primeSum =>
    if (n : Int) < limit then
      match trialDivision n n 2 with
      | .error e => .error e
      | .ok isPrime =>
        primeLoop limit fuel (n + 1) (if isPrime then wrapInt64 (primeSum + n) else primeSum)
    else .ok primeSum

/-- `long long calculatePrimes(int limit)`. -/
def calculatePrimes (limit : Int) : Except Fault Int :=
  primeLoop limit (limit - 2).toNat 2 0

/-- Sum of the primes `p` with `2 ≤ p < m` (specification side). -/
def primeSumBelow (m : Nat) : Int :=
  ∑ p in (Finset.range m).filter Nat.Prime, (p : Int)

/-! ## `matrixMultiply` (lines 37-55)

The entries are taken from any type with `0`, `+` and `*`; the sizes `n`, `m`, `p` are
the lengths read by the source (all far below the `int` range). -/

section Matrix

variable {α : Type} [Zero α] [Add α] [Mul α]

/-- Read of `M[i][j]`: both applications of `operator[]` have to be in range. -/
def readEntry (M : List (List α)) (i j : Nat) : Option α :=
  match M[i]? with
  | none => none
  | some row => row[j]?

/-- Write of `M[i][j] = v`, used only after the read of `M[i][j]` succeeded. -/
def writeEntry (M : List (List α)) (i j : Nat) (v : α) : List (List α) :=
  match M[i]? with
  | none => M
  | some row => M.set i (row.set j v)

/-- Innermost loop: `for (int k = 0; k < p; k++) { C[i][j] += A[i][k] * B[k][j]; }`. -/
def dotLoop (A B : List (List α)) (p i j : Nat) :
    Nat → Nat → List (List α) → Except Fault (List (List α))
  | 0, k, C => if k < p then .error .outOfFuel else .ok C
  | fuel + 1, k, C =>
    if k < p then
      match readEntry A i k, readEntry B k j, readEntry C i j with
      | some a, some b, some c => dotLoop A B p i j fuel (k + 1) (writeEntry C i j (c + a * b))
      | _, _, _ => .error .outOfRange
    else .ok C

/-- Middle loop: `for (int j = 0; j < m; j++) { ... }`. -/
def colLoop (A B : List (List α)) (m p i : Nat) :
    Nat → Nat → List (List α) → Except Fault (List (List α))
  | 0, j, C => if j < m then .error .outOfFuel else .ok C
  | fuel + 1, j, C =>
    if j < m then
      match dotLoop A B p i j p 0 C with
      | .error e => .error e
      | .ok C1 => colLoop A B m p i fuel (j + 1) C1
    else .ok C

/-- Outer loop: `for (int i = 0; i < n; i++) { ... }`. -/
def rowLoop (A B : List (List α)) (n m p : Nat) :
    Nat → Nat → List (List α) → Except Fault (List (List α))
  | 0, i, C => if i < n then .error .outOfFuel else .ok C
  | fuel + 1, i, C =>
    if i < n then
      match colLoop A B m p i m 0 C with
      | .error e => .error e
      | .ok C1 => rowLoop A B n m p fuel (i + 1) C1
    else .ok C

/-- `matrixMultiply(A, B)`: `n = A.size()`, `m = B[0].size()`, `p = B.size()`, the result
starts as `n` rows of `m` zeros and is filled by the three nested loops. -/
def matrixMultiply (A B : List (List α)) : Except Fault (List (List α)) :=
  let n := A.length
  match B[0]? with
  | none => .error .outOfRange
  | some row0 =>
    let m := row0.length
    let p := B.length
    let C := List.replicate n (List.replicate m (0 : α))
    rowLoop A B n m p n 0 C

/-- A list of rows is an `n × m` matrix: `n` rows, each of length `m` (specification side). -/
def IsMatrix (M : List (List α)) (n m : Nat) : Prop :=
  M.length = n ∧ ∀ row ∈ M, row.length = m

/-- Entry `(i, j)` of a list of rows, `0` outside the shape (specification side). -/
def entry (M : List (List α)) (i j : Nat) : α :=
  (readEntry M i j).getD 0

/-- Value of `C[i][j]` after the first `k` iterations of the innermost loop entered with
`C[i][j] = 0`: the products `A[i][k] * B[k][j]` added in increasing `k`
(specification side). -/
def dotAcc (A B : List (List α)) (i j : Nat) : Nat → α
  | 0 => 0
  | k + 1 => dotAcc A B i j k + entry A i k * entry B k j

end Matrix

/-- The `p × p` identity matrix: `1` on the diagonal, `0` elsewhere (specification side). -/
def identityMatrix (α : Type) [Zero α] [One α] (p : Nat) : List (List α) :=
  (List.range p).map fun i => (List.range p).map fun j => if i = j then 1 else 0

/-! ## `fibonacci` (lines 86-97) -/

/-- The sweep `for (int i = 2; i <= n; i++) { fib[i] = fib[i-1] + fib[i-2]; }` over the
buffer `fib` of `long long`.  The counter starts at `2`, so `i - 1` and `i - 2` do not
go below zero. -/
def fibSweep (n : Int) : Nat → Nat → List Int → Except Fault (List Int)
  | 0, i, fib => if (i : Int) ≤ n then .error .outOfFuel else .ok fib
  | fuel + 1, i, fib =>
    if (i : Int) ≤ n then
      match fib[i - 1]?, fib[i - 2]? with
      | some a, some b =>
        if i < fib.length then fibSweep n fuel (i + 1) (fib.set i (wrapInt64 (a + b)))
        else .error .outOfRange
      | _, _ => .error .outOfRange
    else .ok fib

/-- `long long fibonacci(int n)`.  The buffer has `n + 1` value-initialised entries, the
sum `n + 1` being an `int`; a negative size does not yield a buffer. -/
def fibonacci (n : Int) : Except Fault Int :=
  if n ≤ 1 then .ok n
  else
    let size := wrapInt32 (n + 1)
    if size < 0 then .error .badAlloc
    else
      let fib := List.replicate size.toNat (0 : Int)
      if 1 < fib.length then
        match fibSweep n (n - 1).toNat 2 ((fib.set 0 0).set 1 1) with
        | .error e => .error e
        | .ok fib1 =>
          match fib1[n.toNat]? with
          | some v => .ok v
          | none => .error .outOfRange
      else .error .outOfRange

/-- The value the sweep stores at index `k` of the buffer: `0`, `1`, and from then on the
64-bit sum of the two entries before it (specification side). -/
def fibBuffer : Nat → Int
  | 0 => 0
  | 1 => 1
  | k + 2 => wrapInt64 (fibBuffer (k + 1) + fibBuffer k)

/-! ## `intensiveSorting` (lines 100-114)

`std::shuffle` rearranges the array with the pseudo-random generator; it is a parameter
`shuffle` giving, for each iteration, the rearrangement applied in it.  `std::sort` is
taken by its contract: the result is the ordered rearrangement of its input. -/

/-- `std::iota(first, last, value)`: successive entries receive `value`, `value + 1`, ... -/
def iota : List Int → Int → List Int
  | [], _ => []
  | _ :: rest, value => value :: iota rest (value + 1)

/-- Body of the loop of `intensiveSorting`; the result is `data` at the end of the body.
`std::vector<int> data(size)` does not yield a vector when `size` is negative. -/
def sortingPass (size : Int) (shuffle : List Int → List Int) : Except Fault (List Int) :=
  if size < 0 then .error .badAlloc
  else
    let data := List.replicate size.toNat (0 : Int)
    let data := iota data 0
    let data := shuffle data
    let data := data.insertionSort (· ≤ ·)
    let data := data.reverse
    let data := data.insertionSort (· ≥ ·)
    .ok data

/-- The loop `for (int iteration = 0; iteration < 10; iteration++) { ... }`; `trace`
collects the final `data` of every iteration that has been completed. -/
def sortingLoop (size : Int) (shuffle : Nat → List Int → List Int) :
    Nat → Nat → List (List Int) → Except Fault (List (List Int))
  | 0, iteration, trace => if iteration < 10 then .error .outOfFuel else .ok trace
  | fuel + 1, iteration, trace =>
    if iteration < 10 then
      match sortingPass size (shuffle iteration) with
      | .error e => .error e
      | .ok data => sortingLoop size shuffle fuel (iteration + 1) (trace ++ [data])
    else .ok trace

/-- `void intensiveSorting(int size)`, returning the final `data` of each iteration. -/
def intensiveSorting (size : Int) (shuffle : Nat → List Int → List Int) :
    Except Fault (List (List Int)) :=
  sortingLoop size shuffle 10 0 []

/-- The identity permutation `0, 1, ..., k - 1` (specification side). -/
def identitySequence (k : Nat) : List Int :=
  (List.range k).map fun (t : Nat) => (t : Int)

/-! ## Shared state, `workerThread` (lines 117-163) -/

/-- The data members of `CPUStressTest`.  `startTime` is a time point of the clock,
counted in nanoseconds. -/
structure State where
  running : Bool
  totalOperations : Int
  startTime : Int
  deriving DecidableEq, Repr

/-- The call a worker makes in one iteration, with its arguments. -/
inductive Task
  | primes (limit : Int)
  | matrix (rows cols : Int)
  | math (iterations : Int)
  | fib (n : Int)
  | sort (size : Int)
  deriving DecidableEq, Repr

/-- The `switch (task)` of the worker: the call made and the new value of the local
counter `operations`; a value without a `case` makes no call and leaves the counter. -/
def dispatch (task : Int) (operations : Int) : Option Task × Int :=
  if task = 1 then (some (.primes 100000), wrapInt64 (operations + 1))
  else if task = 2 then (some (.matrix 100 100), wrapInt64 (operations + 1))
  else if task = 3 then (some (.math 100000), wrapInt64 (operations + 1))
  else if task = 4 then (some (.fib 60), wrapInt64 (operations + 1))
  else if task = 5 then (some (.sort 1000000), wrapInt64 (operations + 1))
  else (none, operations)

/-- The loop `while (running) { int task = taskDis(gen); switch (task) {...} }`.
`flags` lists the values the worker reads from `running`, one per evaluation of the
guard, and `draws` the values `taskDis(gen)` returns, one per iteration.  The result is
the local counter and the calls made, in order.  A list that ends before the guard has
read `false` describes a worker that has not left the loop. -/
def workerLoop : List Bool → List Int → Int → List Task → Except Fault (Int × List Task)
  | [], _, _, _ => .error .outOfFuel
  | false :: _, _, operations, calls => .ok (operations, calls)
  | true :: _, [], _, _ => .error .outOfFuel
  | true :: flags, task :: draws, operations, calls =>
    match dispatch task operations with
    | (some call, operations1) => workerLoop flags draws operations1 (calls ++ [call])
    | (none, operations1) => workerLoop flags draws operations1 calls

/-- What one worker observes: the values read from `running` and the task draws. -/
structure WorkerTrace where
  flags : List Bool
  draws : List Int

/-- `void workerThread(int threadId)`: the loop from `operations = 0`, then the single
atomic `totalOperations += operations` (atomic arithmetic wraps at 64 bits). -/
def workerThread (s : State) (w : WorkerTrace) : Except Fault (State × List Task) :=
  match workerLoop w.flags w.draws 0 [] with
  | .error e => .error e
  | .ok (operations, calls) =>
    .ok ({ s with totalOperations := wrapInt64 (s.totalOperations + operations) }, calls)

/-! ## `runStressTest` (lines 165-186) -/

/-- The loop `for (unsigned int i = 0; i < numThreads; i++) threads.emplace_back(..., i)`;
the result lists the identifiers of the workers launched. -/
def launchLoop (numThreads : Nat) : Nat → Nat → List Nat → Except Fault (List Nat)
  | 0, i, threads => if i < numThreads then .error .outOfFuel else .ok threads
  | fuel + 1, i, threads =>
    if i < numThreads then launchLoop numThreads fuel (i + 1) (threads ++ [i])
    else .ok threads

/-- The workers named in `order` run to their end one after the other: each of them
touches the shared state only by its final atomic addition, so `order` is the order in
which these additions take effect. -/
def finishWorkers (traces : Nat → WorkerTrace) : List Nat → State → Except Fault State
  | [], s => .ok s
  | t :: rest, s =>
    match workerThread s (traces t) with
    | .error e => .error e
    | .ok (s1, _) => finishWorkers traces rest s1

/-- `void runStressTest(int durationSeconds)`.  `now` is the clock reading at entry,
`hardwareConcurrency` the value of `std::thread::hardware_concurrency()`, `traces t`
what worker `t` observes and `order` the order in which the workers reach their final
addition.  The result is the state after the last `join` and the workers launched. -/
def runStressTest (s : State) (durationSeconds : Int) (now : Int) (hardwareConcurrency : Nat)
    (traces : Nat → WorkerTrace) (order : List Nat) : Except Fault (State × List Nat) :=
  let s := { s with startTime := now }
  let s := { s with running := true }
  let s := { s with totalOperations := 0 }
  let numThreads := hardwareConcurrency
  match launchLoop numThreads numThreads 0 [] with
  | .error e => .error e
  | .ok threads =>
    let s := { s with running := false }
    match finishWorkers traces order s with
    | .error e => .error e
    | .ok s1 => .ok (s1, threads)

/-- The task that belongs to a draw in `[1, 5]`: 1 primes, 2 matrix multiply, 3 math,
4 Fibonacci, 5 sort, with the arguments the worker passes (specification side). -/
def matchingTask (task : Int) : Task :=
  if task = 1 then .primes 100000
  else if task = 2 then .matrix 100 100
  else if task = 3 then .math 100000
  else if task = 4 then .fib 60
  else .sort 1000000

/-- Each of the workers `0, ..., K - 1` leaves its loop, worker `t` with the local tally
`c t` (specification side). -/
def WorkersFinish (traces : Nat → WorkerTrace) (K : Nat) (c : Nat → Int) : Prop :=
  ∀ t, t < K → ∃ calls, workerLoop (traces t).flags (traces t).draws 0 [] = .ok (c t, calls)

/-- The integer lies in the range of `long long` (specification side). -/
def InInt64 (x : Int) : Prop :=
  -9223372036854775808 ≤ x ∧ x ≤ 9223372036854775807

/-- Traces used to instantiate the results on runs: worker `t` reads the flag true `t`
times and then false, and draws task 4 every time. -/
def exampleTraces (t : Nat) : WorkerTrace :=
  { flags := List.replicate t true ++ [false], draws := List.replicate t 4 }

/-! ## `printResults` (lines 188-199)

The quotients of `printResults` are quotients of `double` values.  A finite `double` is
the rational number it denotes; the result of a conversion or of a division is the exact
result rounded to the nearest number with 53 significant bits, ties to the even
significand (`roundDouble`).  From a `long long` count, a `long long` number of
milliseconds and an `unsigned` thread count, every non-zero value formed by
`printResults` has a magnitude between `2^-96` and `2^74`, far inside the range of normal
`double` values, where this is the IEEE 754 binary64 result. -/

/-- Nearest integer to `y`, a tie going to the even neighbour. -/
def roundHalfEven (y : ℚ) : Int :=
  let f := ⌊y⌋
  if y - f < 1 / 2 then f
  else if 1 / 2 < y - f then f + 1
  else if f % 2 = 0 then f
  else f + 1

/-- Rounding of a rational to `double`: with `2^e ≤ |x| < 2^(e+1)` the unit in the last
place is `2^(e-52)` and `x` is rounded to the nearest multiple of it. -/
def roundDouble (x : ℚ) : ℚ :=
  if x = 0 then 0
  else (roundHalfEven (x / 2 ^ (Int.log 2 |x| - 52)) : ℚ) * 2 ^ (Int.log 2 |x| - 52)

/-- The integer part of `x`: the fractional part is discarded (rounding towards zero). -/
def truncate (x : ℚ) : Int :=
  if 0 ≤ x then ⌊x⌋ else ⌈x⌉

/-- `static_cast<long long>(x)` of a `double`: the integer part of `x` when it is in the
range of `long long`; the conversion is undefined otherwise (`none`). -/
def castInt64 (x : ℚ) : Option Int :=
  if -9223372036854775808 ≤ truncate x ∧ truncate x ≤ 9223372036854775807 then
    some (truncate x)
  else none

/-- The numbers written by `printResults`, in the order of the output line; `opsPerSec`
and `cpuScore` are `none` where the conversion to `long long` is undefined. -/
structure Report where
  actualSeconds : ℚ
  finalOperations : Int
  opsPerSec : Option Int
  numThreads : Nat
  cpuScore : Option Int

/-- `void printResults()`.  `endTime` is the clock reading (nanoseconds) and
`hardwareConcurrency` the value the platform query returns in this call.
`duration_cast<milliseconds>` rounds towards zero; `totalDuration.count()`,
`finalOperations` and `numThreads` are converted to `double` where they meet a `double`
operand, and each division is a `double` division. -/
def printResults (s : State) (endTime : Int) (hardwareConcurrency : Nat) : Except Fault Report :=
  let totalDuration := Int.tdiv (endTime - s.startTime) 1000000
  let actualSeconds : ℚ := roundDouble (roundDouble (totalDuration : ℚ) / 1000)
  let finalOperations := s.totalOperations
  let numThreads := hardwareConcurrency
  if actualSeconds = 0 then .error .divByZero
  else
    let rate : ℚ := roundDouble (roundDouble (finalOperations : ℚ) / actualSeconds)
    if numThreads = 0 then .error .divByZero
    else
      .ok { actualSeconds := actualSeconds
            finalOperations := finalOperations
            opsPerSec := castInt64 rate
            numThreads := numThreads
            cpuScore := castInt64 (roundDouble (rate / roundDouble (numThreads : ℚ))) }

/-! # Verified properties -/

/-! ## Machine arithmetic -/

theorem wrapInt64_of_range (x : Int) (h1 : -9223372036854775808 ≤ x)
    (h2 : x ≤ 9223372036854775807) : wrapInt64 x = x := by
  unfold wrapInt64
  omega

theorem wrapInt64_add_wrap (x y : Int) : wrapInt64 (wrapInt64 x + y) = wrapInt64 (x + y) := by
  unfold wrapInt64
  omega

theorem wrapInt32_of_range (x : Int) (h1 : -2147483648 ≤ x) (h2 : x ≤ 2147483647) :
    wrapInt32 x = x := by
  unfold wrapInt32
  omega

/-! ## `calculatePrimes` -/

theorem leSqrt_iff (i n : Nat) : leSqrt i n = true ↔ i ≤ Nat.sqrt n := by
  simp [leSqrt, Nat.le_sqrt]

/-- The inner loop returns whether no `m` with `i ≤ m ≤ √n` divides `n`. -/
theorem trialDivision_eq (n : Nat) :
    ∀ (fuel i : Nat), 1 ≤ i → Nat.sqrt n + 1 ≤ fuel + i →
      trialDivision n fuel i = .ok (decide (∀ m, i ≤ m → m ≤ Nat.sqrt n → ¬ m ∣ n)) := by
  intro fuel
  induction fuel with
  | zero =>
    intro i _ hfuel
    have hgt : ¬ i ≤ Nat.sqrt n := by omega
    have hg : leSqrt i n = false := by
      rw [← Bool.not_eq_true, leSqrt_iff]; exact hgt
    simp only [trialDivision, hg]
    simp only [Bool.false_eq_true, if_false]
    congr 1
    symm
    rw [decide_eq_true_iff]
    intro m h1 h2
    omega
  | succ fuel ih =>
    intro i hi hfuel
    unfold trialDivision
    by_cases hle : i ≤ Nat.sqrt n
    · have hg : leSqrt i n = true := (leSqrt_iff i n).2 hle
      simp only [hg, if_true]
      by_cases hdiv : n % i = 0
      · simp only [hdiv, if_true]
        congr 1
        symm
        rw [decide_eq_false_iff_not]
        intro hall
        exact hall i le_rfl hle (Nat.dvd_of_mod_eq_zero hdiv)
      · simp only [hdiv, if_false]
        rw [ih (i + 1) (by omega) (by omega)]
        congr 1
        rw [decide_eq_decide]
        constructor
        · intro hall m h1 h2
          rcases Nat.eq_or_lt_of_le h1 with heq | hlt
          · subst heq
            intro hd
            exact hdiv (Nat.mod_eq_zero_of_dvd hd)
          · exact hall m hlt h2
        · intro hall m h1 h2
          exact hall m (by omega) h2
    · have hg : leSqrt i n = false := by
        rw [← Bool.not_eq_true, leSqrt_iff]; exact hle
      simp only [hg, Bool.false_eq_true, if_false]
      congr 1
      symm
      rw [decide_eq_true_iff]
      intro m h1 h2
      omega

/-- From `i = 2` the inner loop computes primality: `isPrime` is true iff `n` is prime. -/
theorem trialDivision_prime (n : Nat) (hn : 2 ≤ n) :
    trialDivision n n 2 = .ok (decide (Nat.Prime n)) := by
  have hs : Nat.sqrt n ≤ n := Nat.sqrt_le_self n
  rw [trialDivision_eq n n 2 (by omega) (by omega)]
  congr 1
  rw [decide_eq_decide, Nat.prime_def_le_sqrt]
  constructor
  · intro h; exact ⟨hn, h⟩
  · intro h; exact h.2

theorem primeSumBelow_succ (n : Nat) :
    primeSumBelow (n + 1) = primeSumBelow n + (if Nat.Prime n then (n : Int) else 0) := by
  unfold primeSumBelow
  rw [Finset.sum_filter, Finset.sum_filter, Finset.sum_range_succ]

theorem primeSumBelow_nonneg (n : Nat) : 0 ≤ primeSumBelow n := by
  unfold primeSumBelow
  apply Finset.sum_nonneg
  intro p _
  exact Int.natCast_nonneg p

theorem primeSumBelow_le (n : Nat) : primeSumBelow n ≤ (n : Int) * n := by
  induction n with
  | zero => simp [primeSumBelow]
  | succ n ih =>
    rw [primeSumBelow_succ]
    have : (if Nat.Prime n then (n : Int) else 0) ≤ n := by
      split
      · exact le_rfl
      · exact Int.natCast_nonneg n
    push_cast
    nlinarith [Int.natCast_nonneg n]

/-- The outer loop, entered at `n` with the primes below `n` already summed, ends with
the sum of the primes below `limit`; no 64-bit addition wraps. -/
theorem primeLoop_eq (limit : Int) (hmax : limit ≤ INT_MAX) :
    ∀ (fuel n : Nat), 2 ≤ n → (n : Int) ≤ limit → limit ≤ (n : Int) + fuel →
      primeLoop limit fuel n (primeSumBelow n) = .ok (primeSumBelow limit.toNat) := by
  intro fuel
  induction fuel with
  | zero =>
    intro n _ hle hfuel
    have heq : limit = (n : Int) := by
      simp only [Nat.cast_zero, add_zero] at hfuel
      omega
    subst heq
    simp [primeLoop]
  | succ fuel ih =>
    intro n hn hle hfuel
    unfold primeLoop
    by_cases hlt : (n : Int) < limit
    · simp only [hlt, if_true]
      rw [trialDivision_prime n hn]
      simp only
      have hnext : (if decide (Nat.Prime n) = true then wrapInt64 (primeSumBelow n + (n : Int))
          else primeSumBelow n) = primeSumBelow (n + 1) := by
        rw [primeSumBelow_succ]
        by_cases hp : Nat.Prime n
        · simp only [hp, decide_True, if_true]
          apply wrapInt64_of_range
          · have := primeSumBelow_nonneg n
            omega
          · have h1 := primeSumBelow_le n
            have h2 : (n : Int) ≤ 2147483647 := by
              unfold INT_MAX at hmax
              omega
            nlinarith [Int.natCast_nonneg n]
        · simp [hp]
      rw [hnext]
      apply ih (n + 1) (by omega)
      · push_cast; omega
      · push_cast; push_cast at hfuel; omega
    · have heq : limit = (n : Int) := by omega
      subst heq
      simp
  
/-- C1. For every `int` limit with `limit ≥ 2`, `calculatePrimes(limit)` returns the exact
sum of all primes `p` with `2 ≤ p < limit`. -/
theorem calculatePrimes_eq_primeSum (limit : Int) (h2 : 2 ≤ limit) (hmax : limit ≤ INT_MAX) :
    calculatePrimes limit
      = .ok (∑ p in (Finset.range limit.toNat).filter Nat.Prime, (p : Int)) := by
  unfold calculatePrimes
  have h0 : primeSumBelow 2 = 0 := by
    simp [primeSumBelow, Finset.sum_filter, Finset.sum_range_succ]
    decide
  have := primeLoop_eq limit hmax (limit - 2).toNat 2 le_rfl (by simpa using h2)
    (by rw [Int.toNat_of_nonneg (by omega)]; simp)
  rw [h0] at this
  exact this

/-- Witness for C1: `calculatePrimes(10) = 2 + 3 + 5 + 7 = 17`. -/
theorem calculatePrimes_eq_primeSum_witness :
    (2 : Int) ≤ 10 ∧ (10 : Int) ≤ INT_MAX ∧ calculatePrimes 10 = .ok 17 ∧
      calculatePrimes 10 = .ok (∑ p in (Finset.range (10 : Int).toNat).filter Nat.Prime, (p : Int)) :=
  ⟨by decide, by decide, by decide, calculatePrimes_eq_primeSum 10 (by decide) (by decide)⟩

/-! ## `fibonacci` -/

/-- The sweep, entered at `i` with the entries below `i` in place, ends with every entry
of the buffer in place; every index it uses is inside the buffer. -/
theorem fibSweep_eq (N : Nat) :
    ∀ (fuel i : Nat) (fib : List Int), 2 ≤ i → i ≤ N + 1 → fib.length = N + 1 →
      (∀ j, j < i → fib[j]? = some (fibBuffer j)) → N + 1 ≤ i + fuel →
      ∃ fib1, fibSweep (N : Int) fuel i fib = .ok fib1 ∧ fib1.length = N + 1 ∧
        ∀ j, j ≤ N → fib1[j]? = some (fibBuffer j) := by
  intro fuel
  induction fuel with
  | zero =>
    intro i fib _ hi hlen hinv hfuel
    have hgt : ¬ ((i : Int) ≤ (N : Int)) := by omega
    refine ⟨fib, ?_, hlen, ?_⟩
    · simp only [fibSweep, hgt, if_false]
    · intro j hj
      exact hinv j (by omega)
  | succ fuel ih =>
    intro i fib h2 hi hlen hinv hfuel
    unfold fibSweep
    by_cases hle : (i : Int) ≤ (N : Int)
    · have hiN : i ≤ N := by omega
      simp only [hle, if_true]
      rw [hinv (i - 1) (by omega), hinv (i - 2) (by omega)]
      have hlt : i < fib.length := by omega
      simp only [hlt, if_true]
      apply ih (i + 1) _ (by omega) (by omega) (by simpa using hlen) _ (by omega)
      intro j hj
      rw [List.getElem?_set]
      by_cases hij : i = j
      · subst hij
        simp only [if_true, hlt]
        congr 1
        obtain ⟨k, rfl⟩ : ∃ k, i = k + 2 := ⟨i - 2, by omega⟩
        simp [fibBuffer]
      · simp only [hij, if_false]
        exact hinv j (by omega)
    · refine ⟨fib, ?_, hlen, ?_⟩
      · simp only [hle, if_false]
      · intro j hj
        exact hinv j (by omega)

/-- For `2 ≤ n < INT_MAX` the function returns the entry the sweep stored at index `n`. -/
theorem fibonacci_eq_fibBuffer (n : Int) (h2 : 2 ≤ n) (hmax : n < INT_MAX) :
    fibonacci n = .ok (fibBuffer n.toNat) := by
  obtain ⟨N, rfl⟩ : ∃ N : Nat, n = (N : Int) := ⟨n.toNat, (Int.toNat_of_nonneg (by omega)).symm⟩
  have hN : 2 ≤ N := by omega
  unfold INT_MAX at hmax
  unfold fibonacci
  have h1 : ¬ ((N : Int) ≤ 1) := by omega
  have hsize : wrapInt32 ((N : Int) + 1) = ((N + 1 : Nat) : Int) := by
    rw [wrapInt32_of_range _ (by omega) (by omega)]
    push_cast
    rfl
  simp only [h1, if_false, hsize, Int.toNat_ofNat]
  have hneg : ¬ (((N + 1 : Nat) : Int) < 0) := by omega
  simp only [hneg, if_false, List.length_replicate]
  have hlen1 : 1 < N + 1 := by omega
  simp only [hlen1, if_true]
  obtain ⟨fib1, hsweep, _, hall⟩ := fibSweep_eq N (N - 1) 2
    (((List.replicate (N + 1) (0 : Int)).set 0 0).set 1 1) le_rfl (by omega) (by simp)
    (by
      intro j hj
      rw [List.getElem?_set, List.getElem?_set]
      rcases Nat.lt_succ_iff_lt_or_eq.1 hj with hj0 | hj1
      · have : j = 0 := by omega
        subst this
        simp [fibBuffer]
      · subst hj1
        simp [fibBuffer]
        omega)
    (by omega)
  have hfuel : ((N : Int) - 1).toNat = N - 1 := by omega
  rw [hfuel, hsweep]
  simp only [hall N le_rfl]

theorem fib_le_fib_92 (k : Nat) (hk : k ≤ 92) : (Nat.fib k : Int) ≤ 7540113804746346429 := by
  have h := Nat.fib_mono hk
  have h92 : Nat.fib 92 = 7540113804746346429 := by decide
  rw [h92] at h
  exact_mod_cast h

/-- Up to index 92 no addition of the sweep wraps: the buffer holds Fibonacci numbers. -/
theorem fibBuffer_eq_fib :
    ∀ k : Nat, k + 1 ≤ 92 →
      fibBuffer k = (Nat.fib k : Int) ∧ fibBuffer (k + 1) = (Nat.fib (k + 1) : Int) := by
  intro k
  induction k with
  | zero => intro _; simp [fibBuffer]
  | succ k ih =>
    intro hk
    obtain ⟨h0, h1⟩ := ih (by omega)
    refine ⟨h1, ?_⟩
    have hfib : (Nat.fib (k + 1 + 1) : Int) = (Nat.fib (k + 1) : Int) + (Nat.fib k : Int) := by
      rw [show k + 1 + 1 = k + 2 from rfl, Nat.fib_add_two]
      push_cast
      ring
    have hunfold : fibBuffer (k + 1 + 1) = wrapInt64 (fibBuffer (k + 1) + fibBuffer k) := by
      simp [fibBuffer]
    rw [hunfold, h0, h1, ← hfib]
    apply wrapInt64_of_range
    · have := Int.natCast_nonneg (Nat.fib (k + 1 + 1))
      omega
    · have := fib_le_fib_92 (k + 1 + 1) hk
      omega

/-- For `0 ≤ n ≤ 92` the function returns the `n`-th Fibonacci number. -/
theorem fibonacci_eq_fib (n : Int) (h0 : 0 ≤ n) (h92 : n ≤ 92) :
    fibonacci n = .ok (Nat.fib n.toNat : Int) := by
  obtain ⟨N, rfl⟩ : ∃ N : Nat, n = (N : Int) := ⟨n.toNat, (Int.toNat_of_nonneg h0).symm⟩
  rw [Int.toNat_ofNat]
  by_cases hN : 2 ≤ N
  · rw [fibonacci_eq_fibBuffer (N : Int) (by omega) (by unfold INT_MAX; omega), Int.toNat_ofNat]
    obtain ⟨k, rfl⟩ : ∃ k, N = k + 1 := ⟨N - 1, by omega⟩
    rw [(fibBuffer_eq_fib k (by omega)).2]
  · have h : N = 0 ∨ N = 1 := by omega
    rcases h with rfl | rfl
    · decide
    · decide

/-- C2 (amended). `fibonacci(0) = 0`, `fibonacci(1) = 1`, `fibonacci(10) = 55`, and for every
`n` with `2 ≤ n ≤ 92` the value returned for `n` is the sum of the values returned for
`n - 1` and `n - 2`. -/
theorem fibonacci_recurrence (n : Int) (h2 : 2 ≤ n) (h92 : n ≤ 92) :
    fibonacci 0 = .ok 0 ∧ fibonacci 1 = .ok 1 ∧ fibonacci 10 = .ok 55 ∧
      ∃ a b, fibonacci (n - 1) = .ok a ∧ fibonacci (n - 2) = .ok b ∧
        fibonacci n = .ok (a + b) := by
  refine ⟨by decide, by decide, by decide, (Nat.fib (n - 1).toNat : Int),
    (Nat.fib (n - 2).toNat : Int), fibonacci_eq_fib _ (by omega) (by omega),
    fibonacci_eq_fib _ (by omega) (by omega), ?_⟩
  rw [fibonacci_eq_fib n (by omega) h92]
  obtain ⟨k, rfl⟩ : ∃ k : Nat, n = ((k + 2 : Nat) : Int) :=
    ⟨(n - 2).toNat, by push_cast; rw [Int.toNat_of_nonneg (by omega)]; ring⟩
  have e1 : (((k + 2 : Nat) : Int) - 1).toNat = k + 1 := by omega
  have e2 : (((k + 2 : Nat) : Int) - 2).toNat = k := by omega
  rw [e1, e2, Int.toNat_ofNat, Nat.fib_add_two]
  push_cast
  ring_nf

/-- Witness for C2 (amended) at `n = 10`. -/
theorem fibonacci_recurrence_witness :
    (2 : Int) ≤ 10 ∧ (10 : Int) ≤ 92 ∧
      (fibonacci 0 = .ok 0 ∧ fibonacci 1 = .ok 1 ∧ fibonacci 10 = .ok 55 ∧
        ∃ a b, fibonacci (10 - 1) = .ok a ∧ fibonacci (10 - 2) = .ok b ∧
          fibonacci 10 = .ok (a + b)) :=
  ⟨by decide, by decide, fibonacci_recurrence 10 (by decide) (by decide)⟩

theorem fibBuffer_93 : fibBuffer 93 = -6246583658587674878 := by
  have h := fibBuffer_eq_fib 91 (by decide)
  have h91 : Nat.fib 91 = 4660046610375530309 := by decide
  have h92 : Nat.fib 92 = 7540113804746346429 := by decide
  have hunfold : fibBuffer 93 = wrapInt64 (fibBuffer 92 + fibBuffer 91) := by
    simp [fibBuffer]
  rw [hunfold, h.1, h.2, h91, h92]
  decide

/-- C2 (as stated) fails at `n = 93`: the 64-bit sum wraps, and the value returned is not
the sum of the values returned for 92 and 91. -/
theorem fibonacci_recurrence_fails_at_93 :
    fibonacci 93 = .ok (-6246583658587674878) ∧
      fibonacci 92 = .ok 7540113804746346429 ∧
      fibonacci 91 = .ok 4660046610375530309 ∧
      ¬ ∃ a b, fibonacci 92 = .ok a ∧ fibonacci 91 = .ok b ∧ fibonacci 93 = .ok (a + b) := by
  have h93 : fibonacci 93 = .ok (-6246583658587674878) := by
    rw [fibonacci_eq_fibBuffer 93 (by decide) (by decide)]
    exact congrArg Except.ok fibBuffer_93
  have h92 : fibonacci 92 = .ok 7540113804746346429 := by
    rw [fibonacci_eq_fib 92 (by decide) (by decide)]
    exact congrArg Except.ok (by decide)
  have h91 : fibonacci 91 = .ok 4660046610375530309 := by
    rw [fibonacci_eq_fib 91 (by decide) (by decide)]
    exact congrArg Except.ok (by decide)
  refine ⟨h93, h92, h91, ?_⟩
  rintro ⟨a, b, ha, hb, hab⟩
  rw [h92] at ha
  rw [h91] at hb
  rw [h93] at hab
  have ha1 : (7540113804746346429 : Int) = a := by injection ha
  have hb1 : (4660046610375530309 : Int) = b := by injection hb
  have hab1 : (-6246583658587674878 : Int) = a + b := by injection hab
  omega

/-! ## `matrixMultiply` -/

section MatrixLemmas

variable {α : Type}

theorem readEntry_eq_some_iff (M : List (List α)) (i j : Nat) (v : α) :
    readEntry M i j = some v ↔ ∃ row, M[i]? = some row ∧ row[j]? = some v := by
  unfold readEntry
  cases h : M[i]? with
  | none => simp
  | some row => simp

theorem readEntry_of_isMatrix [Zero α] {M : List (List α)} {n m : Nat} (hM : IsMatrix M n m)
    {i j : Nat} (hi : i < n) (hj : j < m) : readEntry M i j = some (entry M i j) := by
  obtain ⟨hlen, hrows⟩ := hM
  have hi1 : i < M.length := by omega
  have hrow : (M[i]).length = m := hrows _ (List.getElem_mem hi1)
  have hj1 : j < (M[i]).length := by omega
  have h : readEntry M i j = some ((M[i])[j]) := by
    rw [readEntry_eq_some_iff]
    exact ⟨M[i], List.getElem?_eq_getElem hi1, List.getElem?_eq_getElem hj1⟩
  rw [entry, h]
  rfl

theorem isMatrix_writeEntry {C : List (List α)} {n m : Nat} (hC : IsMatrix C n m)
    (i j : Nat) (v : α) : IsMatrix (writeEntry C i j v) n m := by
  obtain ⟨hlen, hrows⟩ := hC
  unfold writeEntry
  cases h : C[i]? with
  | none => exact ⟨hlen, hrows⟩
  | some row =>
    refine ⟨by simpa using hlen, ?_⟩
    intro r hr
    rcases List.mem_or_eq_of_mem_set hr with hmem | heq
    · exact hrows r hmem
    · rw [heq, List.length_set]
      exact hrows row (List.getElem?_mem h)

theorem readEntry_writeEntry_same {C : List (List α)} {i j : Nat} {c : α}
    (h : readEntry C i j = some c) (v : α) : readEntry (writeEntry C i j v) i j = some v := by
  obtain ⟨row, hrow, hc⟩ := (readEntry_eq_some_iff C i j c).1 h
  have hi : i < C.length := by
    by_contra hcon
    rw [List.getElem?_eq_none (by omega)] at hrow
    exact Option.noConfusion hrow
  have hj : j < row.length := by
    by_contra hcon
    rw [List.getElem?_eq_none (by omega)] at hc
    exact Option.noConfusion hc
  rw [readEntry_eq_some_iff]
  refine ⟨row.set j v, ?_, ?_⟩
  · simp only [writeEntry, hrow]
    rw [List.getElem?_set]
    simp [hi]
  · rw [List.getElem?_set]
    simp [hj]

theorem readEntry_writeEntry_other (C : List (List α)) {i j i1 j1 : Nat} (v : α)
    (hne : ¬ (i1 = i ∧ j1 = j)) :
    readEntry (writeEntry C i j v) i1 j1 = readEntry C i1 j1 := by
  unfold writeEntry
  cases hrow : C[i]? with
  | none => rfl
  | some row =>
    simp only
    unfold readEntry
    rw [List.getElem?_set]
    by_cases hi : i = i1
    · subst hi
      have hj : ¬ j = j1 := fun h => hne ⟨rfl, h.symm⟩
      by_cases hlt : i < C.length
      · simp only [if_true, hlt, hrow]
        rw [List.getElem?_set]
        simp [hj]
      · rw [List.getElem?_eq_none (by omega)] at hrow
        exact Option.noConfusion hrow
    · simp [hi]

theorem isMatrix_ext {C D : List (List α)} {n m : Nat} (hC : IsMatrix C n m)
    (hD : IsMatrix D n m)
    (h : ∀ i j, i < n → j < m → readEntry C i j = readEntry D i j) : C = D := by
  apply List.ext_getElem?
  intro i
  by_cases hi : i < n
  · have hiC : i < C.length := by rw [hC.1]; exact hi
    have hiD : i < D.length := by rw [hD.1]; exact hi
    rw [List.getElem?_eq_getElem hiC, List.getElem?_eq_getElem hiD]
    congr 1
    have hlC : (C[i]).length = m := hC.2 _ (List.getElem_mem hiC)
    have hlD : (D[i]).length = m := hD.2 _ (List.getElem_mem hiD)
    apply List.ext_getElem?
    intro j
    by_cases hj : j < m
    · have := h i j hi hj
      simpa [readEntry, List.getElem?_eq_getElem hiC, List.getElem?_eq_getElem hiD] using this
    · rw [List.getElem?_eq_none (by omega), List.getElem?_eq_none (by omega)]
  · rw [List.getElem?_eq_none (by rw [hC.1]; omega), List.getElem?_eq_none (by rw [hD.1]; omega)]

end MatrixLemmas

section MatrixLoops

variable {α : Type} [Zero α] [Add α] [Mul α]

/-- The innermost loop, entered at `k` with `C[i][j]` holding the first `k` products, ends
with `C[i][j]` holding all `p` products and every other entry untouched. -/
theorem dotLoop_spec (A B : List (List α)) {n m p : Nat} (hA : IsMatrix A n p)
    (hB : IsMatrix B p m) {i j : Nat} (hi : i < n) (hj : j < m) :
    ∀ (fuel k : Nat) (C : List (List α)), IsMatrix C n m → k ≤ p → p ≤ k + fuel →
      readEntry C i j = some (dotAcc A B i j k) →
      ∃ C1, dotLoop A B p i j fuel k C = .ok C1 ∧ IsMatrix C1 n m ∧
        readEntry C1 i j = some (dotAcc A B i j p) ∧
        ∀ i1 j1, ¬ (i1 = i ∧ j1 = j) → readEntry C1 i1 j1 = readEntry C i1 j1 := by
  intro fuel
  induction fuel with
  | zero =>
    intro k C hC hk hfuel hacc
    have hkp : k = p := by omega
    subst hkp
    exact ⟨C, by simp [dotLoop], hC, hacc, fun _ _ _ => rfl⟩
  | succ fuel ih =>
    intro k C hC hk hfuel hacc
    unfold dotLoop
    by_cases hlt : k < p
    · simp only [hlt, if_true, readEntry_of_isMatrix hA hi hlt,
        readEntry_of_isMatrix hB hlt hj, hacc]
      obtain ⟨C1, hrun, hC1, hval, hother⟩ :=
        ih (k + 1) (writeEntry C i j (dotAcc A B i j k + entry A i k * entry B k j))
          (isMatrix_writeEntry hC i j _) (by omega) (by omega)
          (readEntry_writeEntry_same hacc _)
      refine ⟨C1, hrun, hC1, hval, ?_⟩
      intro i1 j1 hne
      rw [hother i1 j1 hne, readEntry_writeEntry_other C _ hne]
    · have hkp : k = p := by omega
      subst hkp
      exact ⟨C, by simp, hC, hacc, fun _ _ _ => rfl⟩

/-- The middle loop, entered at column `j` of row `i` with the columns below `j` finished
and the others still zero, finishes row `i` and leaves the other rows untouched. -/
theorem colLoop_spec (A B : List (List α)) {n m p : Nat} (hA : IsMatrix A n p)
    (hB : IsMatrix B p m) {i : Nat} (hi : i < n) :
    ∀ (fuel j : Nat) (C : List (List α)), IsMatrix C n m → j ≤ m → m ≤ j + fuel →
      (∀ j1, j1 < j → readEntry C i j1 = some (dotAcc A B i j1 p)) →
      (∀ j1, j ≤ j1 → j1 < m → readEntry C i j1 = some (dotAcc A B i j1 0)) →
      ∃ C1, colLoop A B m p i fuel j C = .ok C1 ∧ IsMatrix C1 n m ∧
        (∀ j1, j1 < m → readEntry C1 i j1 = some (dotAcc A B i j1 p)) ∧
        ∀ i1 j1, i1 ≠ i → readEntry C1 i1 j1 = readEntry C i1 j1 := by
  intro fuel
  induction fuel with
  | zero =>
    intro j C hC hj hfuel hdone _
    have hjm : j = m := by omega
    subst hjm
    exact ⟨C, by simp [colLoop], hC, hdone, fun _ _ _ => rfl⟩
  | succ fuel ih =>
    intro j C hC hj hfuel hdone htodo
    unfold colLoop
    by_cases hlt : j < m
    · obtain ⟨C1, hrun, hC1, hval, hother⟩ :=
        dotLoop_spec A B hA hB hi hlt p 0 C hC (Nat.zero_le p) (by omega)
          (htodo j le_rfl hlt)
      simp only [hlt, if_true, hrun]
      obtain ⟨C2, hrun2, hC2, hval2, hother2⟩ :=
        ih (j + 1) C1 hC1 (by omega) (by omega)
          (by
            intro j1 hj1
            by_cases hjj : j1 = j
            · rw [hjj]; exact hval
            · rw [hother i j1 (fun h => hjj h.2)]
              exact hdone j1 (by omega))
          (by
            intro j1 hj1 hj1m
            rw [hother i j1 (fun h => by omega)]
            exact htodo j1 (by omega) hj1m)
      refine ⟨C2, hrun2, hC2, hval2, ?_⟩
      intro i1 j1 hne
      rw [hother2 i1 j1 hne, hother i1 j1 (fun h => hne h.1)]
    · have hjm : j = m := by omega
      subst hjm
      exact ⟨C, by simp, hC, hdone, fun _ _ _ => rfl⟩

/-- The outer loop, entered at row `i` with the rows below `i` finished and the others
still zero, finishes every row. -/
theorem rowLoop_spec (A B : List (List α)) {n m p : Nat} (hA : IsMatrix A n p)
    (hB : IsMatrix B p m) :
    ∀ (fuel i : Nat) (C : List (List α)), IsMatrix C n m → i ≤ n → n ≤ i + fuel →
      (∀ i1 j1, i1 < i → j1 < m → readEntry C i1 j1 = some (dotAcc A B i1 j1 p)) →
      (∀ i1 j1, i ≤ i1 → i1 < n → j1 < m → readEntry C i1 j1 = some (dotAcc A B i1 j1 0)) →
      ∃ C1, rowLoop A B n m p fuel i C = .ok C1 ∧ IsMatrix C1 n m ∧
        ∀ i1 j1, i1 < n → j1 < m → readEntry C1 i1 j1 = some (dotAcc A B i1 j1 p) := by
  intro fuel
  induction fuel with
  | zero =>
    intro i C hC hi hfuel hdone _
    have hin : i = n := by omega
    subst hin
    exact ⟨C, by simp [rowLoop], hC, hdone⟩
  | succ fuel ih =>
    intro i C hC hi hfuel hdone htodo
    unfold rowLoop
    by_cases hlt : i < n
    · obtain ⟨C1, hrun, hC1, hval, hother⟩ :=
        colLoop_spec A B hA hB hlt m 0 C hC (Nat.zero_le m) (by omega)
          (fun j1 hj1 => absurd hj1 (Nat.not_lt_zero j1))
          (fun j1 _ hj1 => htodo i j1 le_rfl hlt hj1)
      simp only [hlt, if_true, hrun]
      apply ih (i + 1) C1 hC1 (by omega) (by omega)
      · intro i1 j1 hi1 hj1
        by_cases hii : i1 = i
        · rw [hii]; exact hval j1 hj1
        · rw [hother i1 j1 hii]
          exact hdone i1 j1 (by omega) hj1
      · intro i1 j1 hi1 hi1n hj1
        rw [hother i1 j1 (by omega)]
        exact htodo i1 j1 (by omega) hi1n hj1
    · have hin : i = n := by omega
      subst hin
      exact ⟨C, by simp, hC, hdone⟩

omit [Add α] [Mul α] in
theorem isMatrix_zero (n m : Nat) :
    IsMatrix (List.replicate n (List.replicate m (0 : α))) n m := by
  refine ⟨by simp, ?_⟩
  intro row hrow
  rw [(List.mem_replicate.1 hrow).2]
  simp

omit [Add α] [Mul α] in
theorem readEntry_zero {n m i j : Nat} (hi : i < n) (hj : j < m) :
    readEntry (List.replicate n (List.replicate m (0 : α))) i j = some 0 := by
  rw [readEntry_eq_some_iff]
  exact ⟨List.replicate m 0, by simp [List.getElem?_replicate, hi],
    by simp [List.getElem?_replicate, hj]⟩

/-- For `A` of shape `n × p` and `B` of shape `p × m` with `p ≥ 1`, every index used is in
range and the result has shape `n × m` with entry `(i, j)` the accumulated products. -/
theorem matrixMultiply_spec (A B : List (List α)) {n m p : Nat} (hA : IsMatrix A n p)
    (hB : IsMatrix B p m) (hp : 1 ≤ p) :
    ∃ C, matrixMultiply A B = .ok C ∧ IsMatrix C n m ∧
      ∀ i j, i < n → j < m → readEntry C i j = some (dotAcc A B i j p) := by
  have h0 : 0 < B.length := by rw [hB.1]; exact hp
  have hrow0 : (B[0]).length = m := hB.2 _ (List.getElem_mem h0)
  unfold matrixMultiply
  simp only [List.getElem?_eq_getElem h0, hrow0, hA.1, hB.1]
  exact rowLoop_spec A B hA hB n 0 _ (isMatrix_zero n m) (Nat.zero_le n) (by omega)
    (fun i1 j1 hi1 _ => absurd hi1 (Nat.not_lt_zero i1))
    (fun i1 j1 _ hi1 hj1 => readEntry_zero hi1 hj1)

end MatrixLoops

section MatrixExact

variable {α : Type} [Semiring α]

theorem dotAcc_eq_sum (A B : List (List α)) (i j p : Nat) :
    dotAcc A B i j p = ∑ k in Finset.range p, entry A i k * entry B k j := by
  induction p with
  | zero => simp [dotAcc]
  | succ p ih => rw [Finset.sum_range_succ, ← ih, dotAcc]

theorem isMatrix_identity (p : Nat) : IsMatrix (identityMatrix α p) p p := by
  refine ⟨by simp [identityMatrix], ?_⟩
  intro row hrow
  simp only [identityMatrix, List.mem_map] at hrow
  obtain ⟨i, _, rfl⟩ := hrow
  simp

theorem entry_identity {p i k : Nat} (hi : i < p) (hk : k < p) :
    entry (identityMatrix α p) i k = if i = k then 1 else 0 := by
  have h : readEntry (identityMatrix α p) i k = some (if i = k then 1 else 0) := by
    rw [readEntry_eq_some_iff]
    refine ⟨(List.range p).map fun j => if i = j then (1 : α) else 0, ?_, ?_⟩
    · simp [identityMatrix, List.getElem?_map, List.getElem?_range hi]
    · simp [List.getElem?_map, List.getElem?_range hk]
  rw [entry, h]
  rfl

/-- C3 (amended). For `A` of shape `n × p` and `B` of shape `p × m` with `p ≥ 1`,
`matrixMultiply(A, B)` returns a matrix with exactly `n` rows, each of length `m`, whose
entry `(i, j)` is the sum over `k < p` of `A[i][k] * B[k][j]`, accumulated in increasing
`k` from `0` (exact arithmetic). -/
theorem matrixMultiply_shape_and_entries (A B : List (List α)) (n p m : Nat)
    (hA : IsMatrix A n p) (hB : IsMatrix B p m) (hp : 1 ≤ p) :
    ∃ C, matrixMultiply A B = .ok C ∧ C.length = n ∧ (∀ row ∈ C, row.length = m) ∧
      ∀ i j, i < n → j < m →
        readEntry C i j = some (dotAcc A B i j p) ∧
        dotAcc A B i j p = ∑ k in Finset.range p, entry A i k * entry B k j := by
  obtain ⟨C, hrun, hC, hval⟩ := matrixMultiply_spec A B hA hB hp
  exact ⟨C, hrun, hC.1, hC.2, fun i j hi hj => ⟨hval i j hi hj, dotAcc_eq_sum A B i j p⟩⟩

/-- C4 (amended). For every `B` with `p ≥ 1` rows and `m` columns and the `p × p` identity
matrix `I`, `matrixMultiply(I, B) = B` (exact arithmetic). -/
theorem matrixMultiply_identity (B : List (List α)) (p m : Nat) (hB : IsMatrix B p m)
    (hp : 1 ≤ p) : matrixMultiply (identityMatrix α p) B = .ok B := by
  obtain ⟨C, hrun, hC, hval⟩ := matrixMultiply_spec (identityMatrix α p) B
    (isMatrix_identity p) hB hp
  rw [hrun]
  congr 1
  apply isMatrix_ext hC hB
  intro i j hi hj
  rw [hval i j hi hj, readEntry_of_isMatrix hB hi hj, dotAcc_eq_sum]
  congr 1
  have hsum : ∑ k in Finset.range p, entry (identityMatrix α p) i k * entry B k j
      = ∑ k in Finset.range p, if i = k then entry B k j else 0 := by
    apply Finset.sum_congr rfl
    intro k hk
    rw [entry_identity hi (Finset.mem_range.1 hk)]
    split <;> simp
  rw [hsum, Finset.sum_ite_eq]
  simp [hi]

end MatrixExact

/-- Witness for C3 (amended): a `2 × 2` matrix times a `2 × 3` matrix. -/
theorem matrixMultiply_shape_and_entries_witness :
    IsMatrix ([[1, 2], [3, 4]] : List (List Int)) 2 2 ∧
      IsMatrix ([[5, 6, 1], [7, 8, 1]] : List (List Int)) 2 3 ∧ 1 ≤ 2 ∧
      matrixMultiply ([[1, 2], [3, 4]] : List (List Int)) [[5, 6, 1], [7, 8, 1]]
        = .ok [[19, 22, 3], [43, 50, 7]] ∧
      ∃ C, matrixMultiply ([[1, 2], [3, 4]] : List (List Int)) [[5, 6, 1], [7, 8, 1]] = .ok C ∧
        C.length = 2 ∧ (∀ row ∈ C, row.length = 3) ∧
        ∀ i j, i < 2 → j < 3 →
          readEntry C i j
            = some (dotAcc ([[1, 2], [3, 4]] : List (List Int)) [[5, 6, 1], [7, 8, 1]] i j 2) ∧
          dotAcc ([[1, 2], [3, 4]] : List (List Int)) [[5, 6, 1], [7, 8, 1]] i j 2
            = ∑ k in Finset.range 2, entry ([[1, 2], [3, 4]] : List (List Int)) i k
                * entry ([[5, 6, 1], [7, 8, 1]] : List (List Int)) k j :=
  ⟨by simp [IsMatrix], by simp [IsMatrix], by decide, by decide,
    matrixMultiply_shape_and_entries _ _ 2 2 3 (by simp [IsMatrix]) (by simp [IsMatrix])
      (by decide)⟩

/-- C3 (as stated) fails for `p = 0`: with `A` of shape `2 × 0` and `B` of shape `0 × 3`
the read of `B[0]` is outside `B` and no matrix is returned. -/
theorem matrixMultiply_no_rows :
    IsMatrix ([[], []] : List (List Int)) 2 0 ∧ IsMatrix ([] : List (List Int)) 0 3 ∧
      matrixMultiply ([[], []] : List (List Int)) [] = .error .outOfRange ∧
      ¬ ∃ C, matrixMultiply ([[], []] : List (List Int)) [] = .ok C ∧ C.length = 2 :=
  ⟨by simp [IsMatrix], by simp [IsMatrix], by decide, by
    rintro ⟨C, hC, _⟩
    rw [show matrixMultiply ([[], []] : List (List Int)) [] = .error .outOfRange by decide] at hC
    exact Except.noConfusion hC⟩

/-- Witness for C4 (amended): the `2 × 2` identity times a `2 × 3` matrix. -/
theorem matrixMultiply_identity_witness :
    IsMatrix ([[5, 6, 1], [7, 8, 1]] : List (List Int)) 2 3 ∧ 1 ≤ 2 ∧
      matrixMultiply (identityMatrix Int 2) [[5, 6, 1], [7, 8, 1]]
        = .ok [[5, 6, 1], [7, 8, 1]] :=
  ⟨by simp [IsMatrix], by decide,
    matrixMultiply_identity _ 2 3 (by simp [IsMatrix]) (by decide)⟩

/-- C4 (as stated) fails for `p = 0`: the `0 × 0` identity times a matrix without rows
reads `B[0]` outside `B`, so the result is not `B`. -/
theorem matrixMultiply_identity_no_rows :
    IsMatrix ([] : List (List Int)) 0 3 ∧
      matrixMultiply (identityMatrix Int 0) ([] : List (List Int)) ≠ .ok [] ∧
      matrixMultiply (identityMatrix Int 0) ([] : List (List Int)) = .error .outOfRange :=
  ⟨by simp [IsMatrix], by decide, by decide⟩

/-! ## `intensiveSorting` -/

theorem iota_eq (l : List Int) :
    ∀ v : Int, iota l v = (List.range l.length).map fun (t : Nat) => v + (t : Int) := by
  induction l with
  | nil => intro v; rfl
  | cons a rest ih =>
    intro v
    rw [iota, ih (v + 1), List.length_cons, List.range_succ_eq_map, List.map_cons, List.map_map]
    simp only [Nat.cast_zero, add_zero, List.cons.injEq, true_and]
    apply List.map_congr_left
    intro t _
    simp only [Function.comp, Nat.succ_eq_add_one]
    push_cast
    ring

theorem iota_replicate (k : Nat) : iota (List.replicate k 0) 0 = identitySequence k := by
  rw [iota_eq, List.length_replicate, identitySequence]
  apply List.map_congr_left
  intro t _
  simp

theorem identitySequence_sorted (k : Nat) : (identitySequence k).Sorted (· ≤ ·) := by
  unfold identitySequence List.Sorted
  rw [List.pairwise_map]
  exact (List.pairwise_le_range k).imp (fun h => by exact_mod_cast h)

theorem identitySequence_reverse_sorted (k : Nat) :
    (identitySequence k).reverse.Sorted (· ≥ ·) := by
  unfold List.Sorted
  rw [List.pairwise_reverse]
  exact identitySequence_sorted k

/-- One pass ends with `size - 1, ..., 1, 0` whatever rearrangement the shuffle made. -/
theorem sortingPass_eq (size : Int) (h0 : 0 ≤ size) (shuffle : List Int → List Int)
    (hshuffle : ∀ l, (shuffle l).Perm l) :
    sortingPass size shuffle = .ok (identitySequence size.toNat).reverse := by
  unfold sortingPass
  have hneg : ¬ size < 0 := by omega
  simp only [hneg, if_false, iota_replicate]
  congr 1
  apply List.eq_of_perm_of_sorted (r := (· ≥ ·))
  · calc (List.insertionSort (· ≥ ·)
            (List.insertionSort (· ≤ ·) (shuffle (identitySequence size.toNat))).reverse).Perm
          (List.insertionSort (· ≤ ·) (shuffle (identitySequence size.toNat))).reverse :=
            List.perm_insertionSort _ _
      _ |>.Perm (List.insertionSort (· ≤ ·) (shuffle (identitySequence size.toNat))) :=
            List.reverse_perm _
      _ |>.Perm (shuffle (identitySequence size.toNat)) := List.perm_insertionSort _ _
      _ |>.Perm (identitySequence size.toNat) := hshuffle _
      _ |>.Perm (identitySequence size.toNat).reverse := (List.reverse_perm _).symm
  · exact List.sorted_insertionSort _ _
  · exact identitySequence_reverse_sorted _

theorem sortingLoop_eq (size : Int) (h0 : 0 ≤ size) (shuffle : Nat → List Int → List Int)
    (hshuffle : ∀ it l, (shuffle it l).Perm l) :
    ∀ (fuel iteration : Nat) (trace : List (List Int)), iteration ≤ 10 →
      10 ≤ iteration + fuel →
      sortingLoop size shuffle fuel iteration trace
        = .ok (trace ++ List.replicate (10 - iteration) (identitySequence size.toNat).reverse) := by
  intro fuel
  induction fuel with
  | zero =>
    intro iteration trace hle hfuel
    have h10 : iteration = 10 := by omega
    subst h10
    simp [sortingLoop]
  | succ fuel ih =>
    intro iteration trace hle hfuel
    unfold sortingLoop
    by_cases hlt : iteration < 10
    · simp only [hlt, if_true, sortingPass_eq size h0 (shuffle iteration) (hshuffle iteration)]
      rw [ih (iteration + 1) _ (by omega) (by omega), List.append_assoc]
      congr 2
      rw [show 10 - iteration = (10 - (iteration + 1)) + 1 by omega, List.replicate_succ]
      rfl
    · have h10 : iteration = 10 := by omega
      subst h10
      simp

/-- C5 (amended). In each of the 10 iterations of `intensiveSorting(size)`, whatever
rearrangement the shuffle produced, the array after the last operation of the iteration
is in descending order and equals `size - 1, ..., 1, 0`, the reverse of the sorted
identity permutation. -/
theorem intensiveSorting_final_descending (size : Int) (h0 : 0 ≤ size)
    (shuffle : Nat → List Int → List Int) (hshuffle : ∀ it l, (shuffle it l).Perm l) :
    ∃ trace, intensiveSorting size shuffle = .ok trace ∧ trace.length = 10 ∧
      ∀ data ∈ trace, data = (identitySequence size.toNat).reverse ∧ data.Sorted (· ≥ ·) := by
  refine ⟨List.replicate 10 (identitySequence size.toNat).reverse, ?_, by simp, ?_⟩
  · unfold intensiveSorting
    rw [sortingLoop_eq size h0 shuffle hshuffle 10 0 [] (by omega) (by omega)]
    rfl
  · intro data hdata
    rw [(List.mem_replicate.1 hdata).2]
    exact ⟨rfl, identitySequence_reverse_sorted _⟩

/-- Witness for C5 (amended): size 3 with a shuffle that reverses the array. -/
theorem intensiveSorting_final_descending_witness :
    (0 : Int) ≤ 3 ∧ (∀ (it : Nat) (l : List Int), ((fun (_ : Nat) (l : List Int) => l.reverse) it l).Perm l) ∧
      intensiveSorting 3 (fun _ l => l.reverse) = .ok (List.replicate 10 [2, 1, 0]) ∧
      ∃ trace, intensiveSorting 3 (fun _ l => l.reverse) = .ok trace ∧ trace.length = 10 ∧
        ∀ data ∈ trace,
          data = (identitySequence (3 : Int).toNat).reverse ∧ data.Sorted (· ≥ ·) :=
  ⟨by decide, fun _ l => List.reverse_perm l, by decide,
    intensiveSorting_final_descending 3 (by decide) (fun _ l => l.reverse)
      (fun _ l => List.reverse_perm l)⟩

/-- C5 (as stated) fails for size 2: every iteration ends with `1, 0`, which is neither
ascending nor the sorted identity permutation `0, 1`. -/
theorem intensiveSorting_not_ascending :
    intensiveSorting 2 (fun _ l => l) = .ok (List.replicate 10 [1, 0]) ∧
      ([1, 0] : List Int) ≠ identitySequence 2 ∧ ¬ ([1, 0] : List Int).Sorted (· ≤ ·) :=
  ⟨by decide, by decide, by decide⟩

/-! ## `printResults`: `double` arithmetic -/

theorem roundHalfEven_le (y : ℚ) : (roundHalfEven y : ℚ) ≤ y + 1 / 2 := by
  have h1 := Int.floor_le y
  have h2 := Int.lt_floor_add_one y
  unfold roundHalfEven
  simp only
  split_ifs with ha hb hc
  · linarith
  · push_cast; linarith
  · linarith
  · push_cast; linarith

theorem le_roundHalfEven (y : ℚ) : y - 1 / 2 ≤ (roundHalfEven y : ℚ) := by
  have h1 := Int.floor_le y
  have h2 := Int.lt_floor_add_one y
  unfold roundHalfEven
  simp only
  split_ifs with ha hb hc
  · linarith
  · push_cast; linarith
  · linarith
  · push_cast; linarith

/-- An integer below the argument stays below its rounding. -/
theorem intCast_le_roundHalfEven {n : Int} {y : ℚ} (h : (n : ℚ) ≤ y) : n ≤ roundHalfEven y := by
  have h1 := le_roundHalfEven y
  have h2 : ((n - 1 : Int) : ℚ) < (roundHalfEven y : ℚ) := by push_cast; linarith
  have h3 : n - 1 < roundHalfEven y := by exact_mod_cast h2
  omega

/-- An integer above the argument stays above its rounding. -/
theorem roundHalfEven_le_intCast {n : Int} {y : ℚ} (h : y ≤ (n : ℚ)) : roundHalfEven y ≤ n := by
  have h1 := roundHalfEven_le y
  have h2 : (roundHalfEven y : ℚ) < ((n + 1 : Int) : ℚ) := by push_cast; linarith
  have h3 : roundHalfEven y < n + 1 := by exact_mod_cast h2
  omega

theorem roundHalfEven_intCast (n : Int) : roundHalfEven (n : ℚ) = n :=
  le_antisymm (roundHalfEven_le_intCast le_rfl) (intCast_le_roundHalfEven le_rfl)

theorem roundHalfEven_eq_of_near {k : Int} {y : ℚ} (h1 : (k : ℚ) - 1 / 2 < y)
    (h2 : y < (k : ℚ) + 1 / 2) : roundHalfEven y = k := by
  have h3 := le_roundHalfEven y
  have h4 := roundHalfEven_le y
  have h5 : ((k - 1 : Int) : ℚ) < (roundHalfEven y : ℚ) := by push_cast; linarith
  have h6 : (roundHalfEven y : ℚ) < ((k + 1 : Int) : ℚ) := by push_cast; linarith
  have h7 : k - 1 < roundHalfEven y := by exact_mod_cast h5
  have h8 : roundHalfEven y < k + 1 := by exact_mod_cast h6
  omega

/-- The binade of a non-zero value: `2^e ≤ |x| < 2^(e+1)` for `e = Int.log 2 |x|`. -/
theorem binade (x : ℚ) (hx : x ≠ 0) :
    (2 : ℚ) ^ Int.log 2 |x| ≤ |x| ∧ |x| < (2 : ℚ) ^ (Int.log 2 |x| + 1) := by
  have habs : 0 < |x| := abs_pos.2 hx
  have h1 := Int.zpow_log_le_self (R := ℚ) (b := 2) (by norm_num) habs
  have h2 := Int.lt_zpow_succ_log_self (R := ℚ) (b := 2) (by norm_num) |x|
  exact ⟨by exact_mod_cast h1, by exact_mod_cast h2⟩

theorem log_eq_of_bounds {x : ℚ} {e : Int} (hx : 0 < x) (h1 : (2 : ℚ) ^ e ≤ x)
    (h2 : x < (2 : ℚ) ^ (e + 1)) : Int.log 2 x = e := by
  have ha : e ≤ Int.log 2 x :=
    (Int.zpow_le_iff_le_log (R := ℚ) (b := 2) (by norm_num) hx).1 (by exact_mod_cast h1)
  have hb : Int.log 2 x < e + 1 :=
    (Int.lt_zpow_iff_log_lt (R := ℚ) (b := 2) (by norm_num) hx).1 (by exact_mod_cast h2)
  omega

theorem ulp_pos (e : Int) : (0 : ℚ) < (2 : ℚ) ^ (e - 52) := zpow_pos (by norm_num) _

/-- In units of the last place, the magnitude of a non-zero value lies between `2^52`
and `2^53`. -/
theorem scaled_bounds (x : ℚ) (hx : x ≠ 0) :
    (2 : ℚ) ^ (52 : ℕ) ≤ |x| / 2 ^ (Int.log 2 |x| - 52) ∧
      |x| / 2 ^ (Int.log 2 |x| - 52) < (2 : ℚ) ^ (53 : ℕ) := by
  obtain ⟨h1, h2⟩ := binade x hx
  have hP := ulp_pos (Int.log 2 |x|)
  have e1 : (2 : ℚ) ^ (Int.log 2 |x|) = (2 : ℚ) ^ (52 : ℕ) * 2 ^ (Int.log 2 |x| - 52) := by
    rw [← zpow_natCast, ← zpow_add₀ (by norm_num : (2 : ℚ) ≠ 0)]
    congr 1
    push_cast
    ring
  have e2 : (2 : ℚ) ^ (Int.log 2 |x| + 1)
      = (2 : ℚ) ^ (53 : ℕ) * 2 ^ (Int.log 2 |x| - 52) := by
    rw [← zpow_natCast, ← zpow_add₀ (by norm_num : (2 : ℚ) ≠ 0)]
    congr 1
    push_cast
    ring
  constructor
  · rw [le_div_iff₀ hP, ← e1]
    exact h1
  · rw [div_lt_iff₀ hP, ← e2]
    exact h2

/-- The significand of the rounding of a positive value is an integer between `2^52`
and `2^53`. -/
theorem significand_bounds (x : ℚ) (hx : 0 < x) :
    (2 : Int) ^ (52 : ℕ) ≤ roundHalfEven (x / 2 ^ (Int.log 2 |x| - 52)) ∧
      roundHalfEven (x / 2 ^ (Int.log 2 |x| - 52)) ≤ (2 : Int) ^ (53 : ℕ) := by
  obtain ⟨h1, h2⟩ := scaled_bounds x hx.ne'
  rw [abs_of_pos hx] at h1 h2 ⊢
  constructor
  · apply intCast_le_roundHalfEven
    push_cast
    exact h1
  · apply roundHalfEven_le_intCast
    push_cast
    exact h2.le

theorem roundDouble_pos (x : ℚ) (hx : 0 < x) : 0 < roundDouble x := by
  unfold roundDouble
  rw [if_neg hx.ne']
  have h := (significand_bounds x hx).1
  have hr : (0 : ℚ) < (roundHalfEven (x / 2 ^ (Int.log 2 |x| - 52)) : ℚ) := by
    have : (0 : Int) < roundHalfEven (x / 2 ^ (Int.log 2 |x| - 52)) :=
      lt_of_lt_of_le (by norm_num) h
    exact_mod_cast this
  exact mul_pos hr (ulp_pos _)

theorem roundDouble_neg_of_neg (x : ℚ) (hx : x < 0) : roundDouble x < 0 := by
  unfold roundDouble
  rw [if_neg hx.ne]
  obtain ⟨h1, _⟩ := scaled_bounds x hx.ne
  rw [abs_of_neg hx] at h1 ⊢
  have h2 : x / 2 ^ (Int.log 2 (-x) - 52) ≤ ((-(2 : Int) ^ (52 : ℕ) : Int) : ℚ) := by
    push_cast
    rw [neg_div] at h1
    linarith
  have h3 := roundHalfEven_le_intCast h2
  have hr : (roundHalfEven (x / 2 ^ (Int.log 2 (-x) - 52)) : ℚ) < 0 := by
    have : roundHalfEven (x / 2 ^ (Int.log 2 (-x) - 52)) < 0 :=
      lt_of_le_of_lt h3 (by norm_num)
    exact_mod_cast this
  exact mul_neg_of_neg_of_pos hr (ulp_pos _)

/-- Rounding yields zero only for zero. -/
theorem roundDouble_eq_zero_iff (x : ℚ) : roundDouble x = 0 ↔ x = 0 := by
  constructor
  · intro h
    by_contra hx
    rcases lt_or_gt_of_ne hx with hneg | hpos
    · exact (roundDouble_neg_of_neg x hneg).ne h
    · exact (roundDouble_pos x hpos).ne' h
  · intro h
    simp [roundDouble, h]

/-- The relative error of rounding a positive value is at most `2^-53`. -/
theorem roundDouble_error (x : ℚ) (hx : 0 < x) :
    x * (1 - 1 / 2 ^ (53 : ℕ)) ≤ roundDouble x ∧ roundDouble x ≤ x * (1 + 1 / 2 ^ (53 : ℕ)) := by
  obtain ⟨h1, _⟩ := scaled_bounds x hx.ne'
  have hP := ulp_pos (Int.log 2 |x|)
  have hlo := le_roundHalfEven (x / 2 ^ (Int.log 2 |x| - 52))
  have hhi := roundHalfEven_le (x / 2 ^ (Int.log 2 |x| - 52))
  rw [abs_of_pos hx] at h1 hP hlo hhi
  unfold roundDouble
  rw [if_neg hx.ne', abs_of_pos hx]
  set P : ℚ := 2 ^ (Int.log 2 x - 52) with hPdef
  set r : ℚ := (roundHalfEven (x / P) : ℚ) with hrdef
  have hxP : x / P * P = x := div_mul_cancel₀ x hP.ne'
  have h52 : P * 2 ^ (52 : ℕ) ≤ x := by
    have := (le_div_iff₀ hP).1 h1
    linarith
  constructor
  · have : (x / P - 1 / 2) * P ≤ r * P := mul_le_mul_of_nonneg_right hlo hP.le
    have e : (x / P - 1 / 2) * P = x - P / 2 := by rw [sub_mul, hxP]; ring
    rw [e] at this
    have hu : x * (1 - 1 / 2 ^ (53 : ℕ)) ≤ x - P / 2 := by
      have : P / 2 ≤ x / 2 ^ (53 : ℕ) := by
        rw [div_le_div_iff₀ (by norm_num) (by norm_num)]
        have e53 : (2 : ℚ) ^ (53 : ℕ) = 2 ^ (52 : ℕ) * 2 := by norm_num
        rw [e53]
        linarith
      linarith
    linarith
  · have : r * P ≤ (x / P + 1 / 2) * P := mul_le_mul_of_nonneg_right hhi hP.le
    have e : (x / P + 1 / 2) * P = x + P / 2 := by rw [add_mul, hxP]; ring
    rw [e] at this
    have hu : x + P / 2 ≤ x * (1 + 1 / 2 ^ (53 : ℕ)) := by
      have : P / 2 ≤ x / 2 ^ (53 : ℕ) := by
        rw [div_le_div_iff₀ (by norm_num) (by norm_num)]
        have e53 : (2 : ℚ) ^ (53 : ℕ) = 2 ^ (52 : ℕ) * 2 := by norm_num
        rw [e53]
        linarith
      linarith
    linarith

/-- Below `2^53` the unit in the last place is `1 / 2^a` for a natural number `a`. -/
theorem ulp_eq_inv (y : ℚ) (hy : 0 < y) (hy53 : y < 2 ^ (53 : ℕ)) :
    ∃ a : ℕ, (2 : ℚ) ^ (Int.log 2 |y| - 52) = 1 / 2 ^ a := by
  rw [abs_of_pos hy]
  have hlog : Int.log 2 y < 53 :=
    (Int.lt_zpow_iff_log_lt (R := ℚ) (b := 2) (by norm_num) hy).1 (by exact_mod_cast hy53)
  refine ⟨(52 - Int.log 2 y).toNat, ?_⟩
  have e : Int.log 2 y - 52 = -(((52 - Int.log 2 y).toNat : ℕ) : Int) := by
    rw [Int.toNat_of_nonneg (by omega)]
    ring
  rw [e, zpow_neg, zpow_natCast, one_div]

/-- Rounding a positive value below `2^53` does not cross an integer: an integer below
the value stays below the rounded value. -/
theorem intCast_le_roundDouble (n : Int) (y : ℚ) (hy : 0 < y) (hy53 : y < 2 ^ (53 : ℕ))
    (h : (n : ℚ) ≤ y) : (n : ℚ) ≤ roundDouble y := by
  obtain ⟨a, ha⟩ := ulp_eq_inv y hy hy53
  unfold roundDouble
  rw [if_neg hy.ne', ha]
  have h2a : (0 : ℚ) < 2 ^ a := by positivity
  have hscaled : ((n * 2 ^ a : Int) : ℚ) ≤ y / (1 / 2 ^ a) := by
    push_cast
    rw [div_div_eq_mul_div, div_one]
    exact mul_le_mul_of_nonneg_right h h2a.le
  have hr := intCast_le_roundHalfEven hscaled
  have hrq : ((n * 2 ^ a : Int) : ℚ) ≤ (roundHalfEven (y / (1 / 2 ^ a)) : ℚ) := by
    exact_mod_cast hr
  push_cast at hrq
  rw [mul_one_div, le_div_iff₀ h2a]
  exact hrq

/-- An integer above a positive value below `2^53` stays above the rounded value. -/
theorem roundDouble_le_intCast (n : Int) (y : ℚ) (hy : 0 < y) (hy53 : y < 2 ^ (53 : ℕ))
    (h : y ≤ (n : ℚ)) : roundDouble y ≤ (n : ℚ) := by
  obtain ⟨a, ha⟩ := ulp_eq_inv y hy hy53
  unfold roundDouble
  rw [if_neg hy.ne', ha]
  have h2a : (0 : ℚ) < 2 ^ a := by positivity
  have hscaled : y / (1 / 2 ^ a) ≤ ((n * 2 ^ a : Int) : ℚ) := by
    push_cast
    rw [div_div_eq_mul_div, div_one]
    exact mul_le_mul_of_nonneg_right h h2a.le
  have hr := roundHalfEven_le_intCast hscaled
  have hrq : (roundHalfEven (y / (1 / 2 ^ a)) : ℚ) ≤ ((n * 2 ^ a : Int) : ℚ) := by
    exact_mod_cast hr
  push_cast at hrq
  rw [mul_one_div, div_le_iff₀ h2a]
  exact hrq

/-- Integers of magnitude below `2^53` are doubles: converting them is exact. -/
theorem roundDouble_intCast (n : Int) (h0 : 0 ≤ n) (h53 : n < 2 ^ (53 : ℕ)) :
    roundDouble (n : ℚ) = (n : ℚ) := by
  rcases eq_or_lt_of_le h0 with h | h
  · rw [← h]
    simp [roundDouble]
  · have hq : (0 : ℚ) < (n : ℚ) := by exact_mod_cast h
    have hq53 : (n : ℚ) < 2 ^ (53 : ℕ) := by exact_mod_cast h53
    exact le_antisymm (roundDouble_le_intCast n n hq hq53 le_rfl)
      (intCast_le_roundDouble n n hq hq53 le_rfl)

/-- Evaluation of the rounding from the binade and the nearest significand. -/
theorem roundDouble_eval (x : ℚ) (e k : Int) (hx : 0 < x) (h1 : (2 : ℚ) ^ e ≤ x)
    (h2 : x < (2 : ℚ) ^ (e + 1)) (h3 : (k : ℚ) - 1 / 2 < x / 2 ^ (e - 52))
    (h4 : x / 2 ^ (e - 52) < (k : ℚ) + 1 / 2) : roundDouble x = (k : ℚ) * 2 ^ (e - 52) := by
  unfold roundDouble
  rw [if_neg hx.ne', abs_of_pos hx, log_eq_of_bounds hx h1 h2, roundHalfEven_eq_of_near h3 h4]

theorem truncate_of_nonneg (x : ℚ) (hx : 0 ≤ x) : truncate x = ⌊x⌋ := by
  simp [truncate, hx]

/-- The elapsed seconds, as a `double`, are zero exactly when the elapsed milliseconds
are zero. -/
theorem actualSeconds_eq_zero_iff (ms : Int) :
    roundDouble (roundDouble (ms : ℚ) / 1000) = 0 ↔ ms = 0 := by
  rw [roundDouble_eq_zero_iff, div_eq_zero_iff, roundDouble_eq_zero_iff]
  constructor
  · rintro (h | h)
    · exact_mod_cast h
    · norm_num at h
  · intro h
    left
    exact_mod_cast h

theorem printResults_zero_elapsed (s : State) (endTime : Int) (K : Nat)
    (h : Int.tdiv (endTime - s.startTime) 1000000 = 0) :
    printResults s endTime K = .error .divByZero := by
  unfold printResults
  simp only [(actualSeconds_eq_zero_iff _).2 h, if_true]

theorem printResults_zero_threads (s : State) (endTime : Int) :
    printResults s endTime 0 = .error .divByZero := by
  unfold printResults
  simp

theorem printResults_ok (s : State) (endTime : Int) (K : Nat)
    (hms : Int.tdiv (endTime - s.startTime) 1000000 ≠ 0) (hK : K ≠ 0) :
    ∃ r, printResults s endTime K = .ok r ∧ r.numThreads = K := by
  have hsec : ¬ roundDouble (roundDouble ((Int.tdiv (endTime - s.startTime) 1000000 : Int) : ℚ)
      / 1000) = 0 := fun h => hms ((actualSeconds_eq_zero_iff _).1 h)
  unfold printResults
  simp only [hsec, hK, if_false]
  exact ⟨_, rfl, rfl⟩

/-- The elapsed seconds as a `double`, for a positive number of milliseconds below
`2^53`: within a relative error of `2^-53` of `ms / 1000`. -/
theorem actualSeconds_bounds (ms : Int) (hms : 0 < ms) (hms53 : ms < 2 ^ (53 : ℕ)) :
    (ms : ℚ) / 1000 * (1 - 1 / 2 ^ (53 : ℕ)) ≤ roundDouble (roundDouble (ms : ℚ) / 1000) ∧
      roundDouble (roundDouble (ms : ℚ) / 1000) ≤ (ms : ℚ) / 1000 * (1 + 1 / 2 ^ (53 : ℕ)) ∧
      0 < roundDouble (roundDouble (ms : ℚ) / 1000) := by
  rw [roundDouble_intCast ms hms.le hms53]
  have hq : (0 : ℚ) < (ms : ℚ) / 1000 := by
    have : (0 : ℚ) < (ms : ℚ) := by exact_mod_cast hms
    positivity
  exact ⟨(roundDouble_error _ hq).1, (roundDouble_error _ hq).2, roundDouble_pos _ hq⟩

/-- The rate computed in `double` arithmetic lies strictly between `q - 1` and `q + 1`
for `q = floor(ops * 1000 / ms)`, and is at least `q` when `ms` does not divide
`ops * 1000`. -/
theorem rate_bounds (ops ms : Int) (hops : 0 < ops) (hopsmax : ops * 1000 < 2 ^ (51 : ℕ))
    (hms : 0 < ms) (hms53 : ms < 2 ^ (53 : ℕ)) :
    ((ops * 1000 / ms : Int) : ℚ) - 1
        < roundDouble (roundDouble (ops : ℚ) / roundDouble (roundDouble (ms : ℚ) / 1000)) ∧
      roundDouble (roundDouble (ops : ℚ) / roundDouble (roundDouble (ms : ℚ) / 1000))
        < ((ops * 1000 / ms : Int) : ℚ) + 1 ∧
      (¬ ms ∣ ops * 1000 →
        ((ops * 1000 / ms : Int) : ℚ)
          ≤ roundDouble (roundDouble (ops : ℚ) / roundDouble (roundDouble (ms : ℚ) / 1000))) := by
  obtain ⟨hslo, hshi, hspos⟩ := actualSeconds_bounds ms hms hms53
  have hops53 : ops < 2 ^ (53 : ℕ) := by
    have : (2 : Int) ^ (51 : ℕ) ≤ 2 ^ (53 : ℕ) := by norm_num
    omega
  rw [roundDouble_intCast ops hops.le hops53]
  set secs : ℚ := roundDouble (roundDouble (ms : ℚ) / 1000) with hsecs
  have hopsq : (0 : ℚ) < (ops : ℚ) := by exact_mod_cast hops
  have hmsq : (0 : ℚ) < (ms : ℚ) := by exact_mod_cast hms
  have hz : (0 : ℚ) < (ops : ℚ) / secs := div_pos hopsq hspos
  obtain ⟨hrlo, hrhi⟩ := roundDouble_error _ hz
  set rate : ℚ := roundDouble ((ops : ℚ) / secs) with hrate
  have hzs : (ops : ℚ) / secs * secs = (ops : ℚ) := div_mul_cancel₀ _ hspos.ne'
  -- the integer quotient and remainder
  have hdiv : ms * (ops * 1000 / ms) + ops * 1000 % ms = ops * 1000 :=
    Int.ediv_add_emod (ops * 1000) ms
  have hrem0 : 0 ≤ ops * 1000 % ms := Int.emod_nonneg _ hms.ne'
  have hremlt : ops * 1000 % ms < ms := Int.emod_lt_of_pos _ hms
  have hq0 : 0 ≤ ops * 1000 / ms := Int.ediv_nonneg (by omega) hms.le
  set q : Int := ops * 1000 / ms with hq
  set rem : Int := ops * 1000 % ms with hrem
  have hdivq : (ms : ℚ) * (q : ℚ) + (rem : ℚ) = (ops : ℚ) * 1000 := by exact_mod_cast hdiv
  have hrem0q : (0 : ℚ) ≤ (rem : ℚ) := by exact_mod_cast hrem0
  have hremltq : (rem : ℚ) + 1 ≤ (ms : ℚ) := by exact_mod_cast hremlt
  have hq0q : (0 : ℚ) ≤ (q : ℚ) := by exact_mod_cast hq0
  have hNmax : (ops : ℚ) * 1000 < 2 ^ (51 : ℕ) := by exact_mod_cast hopsmax
  have hms1 : (1 : ℚ) ≤ (ms : ℚ) := by exact_mod_cast hms
  -- products of the rate with the seconds
  have hup : rate * secs ≤ (ops : ℚ) * (1 + 1 / 2 ^ (53 : ℕ)) := by
    have := mul_le_mul_of_nonneg_right hrhi hspos.le
    rw [mul_right_comm, hzs] at this
    exact this
  have hlow : (ops : ℚ) * (1 - 1 / 2 ^ (53 : ℕ)) ≤ rate * secs := by
    have := mul_le_mul_of_nonneg_right hrlo hspos.le
    rw [mul_right_comm, hzs] at this
    exact this
  have hqm : (q : ℚ) * (ms : ℚ) = (ops : ℚ) * 1000 - (rem : ℚ) := by linarith [mul_comm (q : ℚ) (ms : ℚ)]
  refine ⟨?_, ?_, ?_⟩
  · by_contra hcon
    push_neg at hcon
    have hq1 : (0 : ℚ) ≤ (q : ℚ) - 1 := le_trans (roundDouble_pos _ hz).le hcon
    have h1 : rate * secs ≤ ((q : ℚ) - 1) * secs := mul_le_mul_of_nonneg_right hcon hspos.le
    have h2 : ((q : ℚ) - 1) * secs
        ≤ ((q : ℚ) - 1) * ((ms : ℚ) / 1000 * (1 + 1 / 2 ^ (53 : ℕ))) :=
      mul_le_mul_of_nonneg_left hshi hq1
    have e : ((q : ℚ) - 1) * ((ms : ℚ) / 1000 * (1 + 1 / 2 ^ (53 : ℕ)))
        = ((q : ℚ) * (ms : ℚ) - (ms : ℚ)) * ((1 + 1 / 2 ^ (53 : ℕ)) / 1000) := by ring
    rw [e, hqm] at h2
    linarith
  · by_contra hcon
    push_neg at hcon
    have h1 : ((q : ℚ) + 1) * secs ≤ rate * secs := mul_le_mul_of_nonneg_right hcon hspos.le
    have h2 : ((q : ℚ) + 1) * ((ms : ℚ) / 1000 * (1 - 1 / 2 ^ (53 : ℕ)))
        ≤ ((q : ℚ) + 1) * secs :=
      mul_le_mul_of_nonneg_left hslo (by linarith)
    have e : ((q : ℚ) + 1) * ((ms : ℚ) / 1000 * (1 - 1 / 2 ^ (53 : ℕ)))
        = ((q : ℚ) * (ms : ℚ) + (ms : ℚ)) * ((1 - 1 / 2 ^ (53 : ℕ)) / 1000) := by ring
    rw [e, hqm] at h2
    linarith
  · intro hndvd
    have hrem1 : 1 ≤ rem := by
      rcases eq_or_lt_of_le hrem0 with h | h
      · exact absurd (Int.dvd_of_emod_eq_zero h.symm) hndvd
      · omega
    have hrem1q : (1 : ℚ) ≤ (rem : ℚ) := by exact_mod_cast hrem1
    by_contra hcon
    push_neg at hcon
    have h1 : rate * secs ≤ (q : ℚ) * secs := mul_le_mul_of_nonneg_right hcon.le hspos.le
    have h2 : (q : ℚ) * secs ≤ (q : ℚ) * ((ms : ℚ) / 1000 * (1 + 1 / 2 ^ (53 : ℕ))) :=
      mul_le_mul_of_nonneg_left hshi hq0q
    have e : (q : ℚ) * ((ms : ℚ) / 1000 * (1 + 1 / 2 ^ (53 : ℕ)))
        = ((q : ℚ) * (ms : ℚ)) * ((1 + 1 / 2 ^ (53 : ℕ)) / 1000) := by ring
    rw [e, hqm] at h2
    linarith

/-- Dividing a `double` below `2^52` by a thread count and rounding does not reach the
next integer: the integer part of the rounded quotient is the integer part of the
dividend divided by the count. -/
theorem score_floor (z : ℚ) (hz : 0 < z) (hz52 : z < 2 ^ (52 : ℕ)) (K : Nat) (hK : 1 ≤ K)
    (hK53 : (K : Int) < 2 ^ (53 : ℕ)) :
    0 < roundDouble (roundDouble z / roundDouble (K : ℚ)) ∧
      ⌊roundDouble (roundDouble z / roundDouble (K : ℚ))⌋ = ⌊roundDouble z⌋ / (K : Int) := by
  have hz53 : z < 2 ^ (53 : ℕ) := lt_trans hz52 (by norm_num)
  obtain ⟨a, ha⟩ := ulp_eq_inv z hz hz53
  have hsig := (significand_bounds z hz).2
  have hrate_def : roundDouble z
      = (roundHalfEven (z / 2 ^ (Int.log 2 |z| - 52)) : ℚ) * 2 ^ (Int.log 2 |z| - 52) := by
    unfold roundDouble
    rw [if_neg hz.ne']
  rw [ha] at hrate_def hsig
  have hratepos := roundDouble_pos z hz
  have hrate52 : roundDouble z ≤ 2 ^ (52 : ℕ) := by
    have := roundDouble_le_intCast (2 ^ (52 : ℕ)) z hz hz53 (by push_cast; exact hz52.le)
    exact_mod_cast this
  have hKq : roundDouble (K : ℚ) = (K : ℚ) := by
    have := roundDouble_intCast (K : Int) (by omega) hK53
    exact_mod_cast this
  rw [hKq]
  set rz : Int := roundHalfEven (z / (1 / 2 ^ a)) with hrz
  set rate : ℚ := roundDouble z with hrate
  have hKpos : (0 : ℚ) < (K : ℚ) := by exact_mod_cast hK
  have hK1 : (1 : ℚ) ≤ (K : ℚ) := by exact_mod_cast hK
  have hKint : (0 : Int) < (K : Int) := by exact_mod_cast hK
  have h2a : (0 : ℚ) < 2 ^ a := by positivity
  have hy : 0 < rate / (K : ℚ) := div_pos hratepos hKpos
  have hyle : rate / (K : ℚ) ≤ rate := div_le_self hratepos.le hK1
  have hy53 : rate / (K : ℚ) < 2 ^ (53 : ℕ) :=
    lt_of_le_of_lt (le_trans hyle hrate52) (by norm_num)
  -- the integer parts
  have hfl := Int.floor_le rate
  have hfl1 := Int.lt_floor_add_one rate
  have hnK : ⌊rate⌋ / (K : Int) * (K : Int) ≤ ⌊rate⌋ := Int.ediv_mul_le _ hKint.ne'
  have hnK1 : ⌊rate⌋ < (⌊rate⌋ / (K : Int) + 1) * (K : Int) :=
    Int.lt_ediv_add_one_mul_self _ hKint
  set n : Int := ⌊rate⌋ / (K : Int) with hn
  have hnKq : (n : ℚ) * (K : ℚ) ≤ (⌊rate⌋ : ℚ) := by exact_mod_cast hnK
  have hnK1q : (⌊rate⌋ : ℚ) + 1 ≤ ((n : ℚ) + 1) * (K : ℚ) := by exact_mod_cast hnK1
  have hn_le : (n : ℚ) ≤ rate / (K : ℚ) := by
    rw [le_div_iff₀ hKpos]
    linarith
  have hlow := intCast_le_roundDouble n _ hy hy53 hn_le
  have hrate_lt : rate < ((n : ℚ) + 1) * (K : ℚ) := by linarith
  have hy_lt : rate / (K : ℚ) < (n : ℚ) + 1 := by
    rw [div_lt_iff₀ hKpos]
    exact hrate_lt
  -- the gap between the dividend and the next multiple of the count
  have hgapq : (rz : ℚ) < ((n : ℚ) + 1) * (K : ℚ) * 2 ^ a := by
    rw [hrate_def, mul_one_div, div_lt_iff₀ h2a] at hrate_lt
    exact hrate_lt
  have hgap : rz + 1 ≤ (n + 1) * (K : Int) * 2 ^ a := by
    have : rz < (n + 1) * (K : Int) * 2 ^ a := by exact_mod_cast hgapq
    omega
  have hgapq1 : (rz : ℚ) + 1 ≤ ((n : ℚ) + 1) * (K : ℚ) * 2 ^ a := by exact_mod_cast hgap
  have hsigq : (rz : ℚ) ≤ 2 ^ (53 : ℕ) := by exact_mod_cast hsig
  -- the rounding of the quotient
  have hPy := ulp_pos (Int.log 2 |rate / (K : ℚ)|)
  have hyround : roundDouble (rate / (K : ℚ))
      = (roundHalfEven (rate / (K : ℚ) / 2 ^ (Int.log 2 |rate / (K : ℚ)| - 52)) : ℚ)
        * 2 ^ (Int.log 2 |rate / (K : ℚ)| - 52) := by
    unfold roundDouble
    rw [if_neg hy.ne']
  obtain ⟨hs1, _⟩ := scaled_bounds (rate / (K : ℚ)) hy.ne'
  rw [abs_of_pos hy] at hs1 hyround hPy
  set Py : ℚ := 2 ^ (Int.log 2 (rate / (K : ℚ)) - 52) with hPydef
  have hupper : roundDouble (rate / (K : ℚ)) < (n : ℚ) + 1 := by
    rcases eq_or_lt_of_le hs1 with heq | hlt
    · have hr : roundHalfEven (rate / (K : ℚ) / Py) = (2 : Int) ^ (52 : ℕ) := by
        rw [← heq]
        have := roundHalfEven_intCast ((2 : Int) ^ (52 : ℕ))
        push_cast at this
        exact this
      have h52 : (((2 : Int) ^ (52 : ℕ) : Int) : ℚ) = 2 ^ (52 : ℕ) := by norm_num
      rw [hyround, hr, h52, heq, div_mul_cancel₀ _ hPy.ne']
      exact hy_lt
    · have hhi := roundHalfEven_le (rate / (K : ℚ) / Py)
      have h1 : (roundHalfEven (rate / (K : ℚ) / Py) : ℚ) * Py
          ≤ (rate / (K : ℚ) / Py + 1 / 2) * Py := mul_le_mul_of_nonneg_right hhi hPy.le
      have e1 : (rate / (K : ℚ) / Py + 1 / 2) * Py = rate / (K : ℚ) + Py / 2 := by
        rw [add_mul, div_mul_cancel₀ _ hPy.ne']
        ring
      rw [e1] at h1
      have hW : (0 : ℚ) < 2 ^ a * (K : ℚ) := mul_pos h2a hKpos
      have hyW : rate / (K : ℚ) * (2 ^ a * (K : ℚ)) = (rz : ℚ) := by
        rw [hrate_def]
        field_simp
      have hlt2 : (2 : ℚ) ^ (52 : ℕ) * Py < rate / (K : ℚ) := (lt_div_iff₀ hPy).1 hlt
      have h3 : (2 : ℚ) ^ (52 : ℕ) * Py * (2 ^ a * (K : ℚ)) < (rz : ℚ) := by
        rw [← hyW]
        exact mul_lt_mul_of_pos_right hlt2 hW
      have h4 : Py / 2 * (2 ^ a * (K : ℚ)) < 1 := by
        have e : (2 : ℚ) ^ (52 : ℕ) * Py * (2 ^ a * (K : ℚ))
            = 2 ^ (53 : ℕ) * (Py / 2 * (2 ^ a * (K : ℚ))) := by ring
        rw [e] at h3
        have h5 : (2 : ℚ) ^ (53 : ℕ) * (Py / 2 * (2 ^ a * (K : ℚ))) < 2 ^ (53 : ℕ) * 1 := by
          linarith
        exact lt_of_mul_lt_mul_left h5 (by norm_num)
      have h6 : (1 : ℚ) ≤ ((n : ℚ) + 1 - rate / (K : ℚ)) * (2 ^ a * (K : ℚ)) := by
        rw [sub_mul, hyW]
        have e : ((n : ℚ) + 1) * (2 ^ a * (K : ℚ)) = ((n : ℚ) + 1) * (K : ℚ) * 2 ^ a := by ring
        rw [e]
        linarith
      have h7 : Py / 2 < (n : ℚ) + 1 - rate / (K : ℚ) := by
        have : Py / 2 * (2 ^ a * (K : ℚ))
            < ((n : ℚ) + 1 - rate / (K : ℚ)) * (2 ^ a * (K : ℚ)) := lt_of_lt_of_le h4 h6
        exact lt_of_mul_lt_mul_right this hW.le
      rw [hyround]
      linarith
  exact ⟨roundDouble_pos _ hy, Int.floor_eq_iff.2 ⟨hlow, hupper⟩⟩

theorem castInt64_of_floor (x : ℚ) (hx : 0 ≤ x) (n : Int) (hfloor : ⌊x⌋ = n)
    (hmax : n ≤ 9223372036854775807) : castInt64 x = some n := by
  have h0 : 0 ≤ ⌊x⌋ := Int.floor_nonneg.2 hx
  unfold castInt64
  rw [truncate_of_nonneg x hx, hfloor]
  rw [hfloor] at h0
  rw [if_pos ⟨by omega, hmax⟩]

theorem roundDouble_zero : roundDouble 0 = 0 := by
  simp [roundDouble]

/-- The two numbers `printResults` derives from `ops` operations, `ms` elapsed
milliseconds and `K` threads, inside the range where the conversions are exact. -/
theorem double_rates (ops ms : Int) (K : Nat) (hops : 0 ≤ ops)
    (hopsmax : ops * 1000 < 2 ^ (51 : ℕ)) (hms : 0 < ms) (hmsmax : ms < 2 ^ (53 : ℕ))
    (hK : 1 ≤ K) (hKmax : K < 2 ^ (32 : ℕ)) :
    ∃ opsPerSec : Int,
      castInt64 (roundDouble (roundDouble (ops : ℚ) / roundDouble (roundDouble (ms : ℚ) / 1000)))
        = some opsPerSec ∧
      castInt64 (roundDouble
          (roundDouble (roundDouble (ops : ℚ) / roundDouble (roundDouble (ms : ℚ) / 1000))
            / roundDouble (K : ℚ)))
        = some (opsPerSec / (K : Int)) ∧
      ops * 1000 / ms - 1 ≤ opsPerSec ∧ opsPerSec ≤ ops * 1000 / ms ∧
      (¬ ms ∣ ops * 1000 → opsPerSec = ops * 1000 / ms) := by
  have hKint : (0 : Int) < (K : Int) := by exact_mod_cast hK
  have hK53 : (K : Int) < 2 ^ (53 : ℕ) := by
    have h1 : (K : Int) < 2 ^ (32 : ℕ) := by exact_mod_cast hKmax
    have h2 : (2 : Int) ^ (32 : ℕ) ≤ 2 ^ (53 : ℕ) := by norm_num
    omega
  rcases eq_or_lt_of_le hops with h0 | hpos
  · subst h0
    refine ⟨0, ?_, ?_, by simp, by simp, by simp⟩
    · simp only [Int.cast_zero, roundDouble_zero, zero_div]
      exact castInt64_of_floor 0 le_rfl 0 (by simp) (by norm_num)
    · simp only [Int.cast_zero, roundDouble_zero, zero_div, Int.zero_ediv]
      exact castInt64_of_floor 0 le_rfl 0 (by simp) (by norm_num)
  · obtain ⟨hslo, hshi, hspos⟩ := actualSeconds_bounds ms hms hmsmax
    obtain ⟨hlo, hhi, hndvd⟩ := rate_bounds ops ms hpos hopsmax hms hmsmax
    have hops53 : ops < 2 ^ (53 : ℕ) := by
      have : (2 : Int) ^ (51 : ℕ) ≤ 2 ^ (53 : ℕ) := by norm_num
      omega
    have hopsD := roundDouble_intCast ops hops hops53
    rw [hopsD] at hlo hhi hndvd ⊢
    set secs : ℚ := roundDouble (roundDouble (ms : ℚ) / 1000) with hsecs
    have hopsq : (0 : ℚ) < (ops : ℚ) := by exact_mod_cast hpos
    have hz : (0 : ℚ) < (ops : ℚ) / secs := div_pos hopsq hspos
    have hzs : (ops : ℚ) / secs * secs = (ops : ℚ) := div_mul_cancel₀ _ hspos.ne'
    have hms1 : (1 : ℚ) ≤ (ms : ℚ) := by exact_mod_cast hms
    have hNmax : (ops : ℚ) * 1000 < 2 ^ (51 : ℕ) := by exact_mod_cast hopsmax
    have hz52 : (ops : ℚ) / secs < 2 ^ (52 : ℕ) := by
      by_contra hcon
      push_neg at hcon
      have h1 : (2 : ℚ) ^ (52 : ℕ) * secs ≤ (ops : ℚ) / secs * secs :=
        mul_le_mul_of_nonneg_right hcon hspos.le
      rw [hzs] at h1
      have h2 : (2 : ℚ) ^ (52 : ℕ) * ((ms : ℚ) / 1000 * (1 - 1 / 2 ^ (53 : ℕ)))
          ≤ 2 ^ (52 : ℕ) * secs := mul_le_mul_of_nonneg_left hslo (by norm_num)
      linarith
    obtain ⟨hscorepos, hscore⟩ := score_floor ((ops : ℚ) / secs) hz hz52 K hK hK53
    set rate : ℚ := roundDouble ((ops : ℚ) / secs) with hrate
    have hratepos : 0 < rate := roundDouble_pos _ hz
    have hq0 : 0 ≤ ops * 1000 / ms := Int.ediv_nonneg (by omega) hms.le
    have hqle : ops * 1000 / ms ≤ ops * 1000 := Int.ediv_le_self _ (by omega)
    have hfloor_lo : ops * 1000 / ms - 1 ≤ ⌊rate⌋ := by
      rw [Int.le_floor]
      push_cast
      exact hlo.le
    have hfloor_hi : ⌊rate⌋ ≤ ops * 1000 / ms := by
      have : ⌊rate⌋ < ops * 1000 / ms + 1 := by
        rw [Int.floor_lt]
        push_cast
        exact hhi
      omega
    have hfloor0 : 0 ≤ ⌊rate⌋ := Int.floor_nonneg.2 hratepos.le
    have h51 : (2 : Int) ^ (51 : ℕ) ≤ 9223372036854775807 := by norm_num
    refine ⟨⌊rate⌋, castInt64_of_floor rate hratepos.le _ rfl (by omega), ?_, hfloor_lo,
      hfloor_hi, ?_⟩
    · have hle : ⌊rate⌋ / (K : Int) ≤ ⌊rate⌋ := Int.ediv_le_self _ hfloor0
      exact castInt64_of_floor _ hscorepos.le _ hscore (by omega)
    · intro hnd
      have : ops * 1000 / ms ≤ ⌊rate⌋ := by
        rw [Int.le_floor]
        exact hndvd hnd
      omega

/-- The report of `printResults` when neither divisor is zero. -/
theorem printResults_eq (s : State) (endTime ops ms : Int) (K : Nat)
    (hcount : s.totalOperations = ops)
    (helapsed : Int.tdiv (endTime - s.startTime) 1000000 = ms) (hms : ms ≠ 0) (hK : K ≠ 0) :
    printResults s endTime K
      = .ok { actualSeconds := roundDouble (roundDouble (ms : ℚ) / 1000)
              finalOperations := ops
              opsPerSec := castInt64 (roundDouble (roundDouble (ops : ℚ)
                / roundDouble (roundDouble (ms : ℚ) / 1000)))
              numThreads := K
              cpuScore := castInt64 (roundDouble
                (roundDouble (roundDouble (ops : ℚ) / roundDouble (roundDouble (ms : ℚ) / 1000))
                  / roundDouble (K : ℚ))) } := by
  have hsec : ¬ roundDouble (roundDouble (ms : ℚ) / 1000) = 0 :=
    fun h => hms ((actualSeconds_eq_zero_iff ms).1 h)
  unfold printResults
  simp only [hcount, helapsed]
  rw [if_neg hsec, if_neg hK]

/-- C6 (amended). `printResults` divides `double` values and truncates.  For `ops ≥ 0`
operations with `ops * 1000 < 2^51`, an elapsed time of `0 < ms < 2^53` milliseconds and
`1 ≤ K < 2^32` threads, the reported Ops/sec is `floor(ops*1000/ms)`, or one less, which
can happen only when `ms` divides `ops * 1000` (the rounded quotient then may fall just
below the integer); the reported CPU Score is the reported Ops/sec divided by `K` and
truncated. -/
theorem printResults_rates (s : State) (endTime ops ms : Int) (K : Nat)
    (hcount : s.totalOperations = ops)
    (helapsed : Int.tdiv (endTime - s.startTime) 1000000 = ms)
    (hops : 0 ≤ ops) (hopsmax : ops * 1000 < 2 ^ (51 : ℕ)) (hms : 0 < ms)
    (hmsmax : ms < 2 ^ (53 : ℕ)) (hK : 1 ≤ K) (hKmax : K < 2 ^ (32 : ℕ)) :
    ∃ r opsPerSec, printResults s endTime K = .ok r ∧
      r.finalOperations = ops ∧ r.numThreads = K ∧
      r.opsPerSec = some opsPerSec ∧
      ops * 1000 / ms - 1 ≤ opsPerSec ∧ opsPerSec ≤ ops * 1000 / ms ∧
      (¬ ms ∣ ops * 1000 → opsPerSec = ops * 1000 / ms) ∧
      r.cpuScore = some (opsPerSec / (K : Int)) := by
  obtain ⟨opsPerSec, hrate, hscore, hlo, hhi, hnd⟩ :=
    double_rates ops ms K hops hopsmax hms hmsmax hK hKmax
  obtain ⟨_, _, hspos⟩ := actualSeconds_bounds ms hms hmsmax
  have hK0 : K ≠ 0 := by omega
  exact ⟨_, opsPerSec, printResults_eq s endTime ops ms K hcount helapsed hms.ne' hK0,
    rfl, rfl, hrate, hlo, hhi, hnd, hscore⟩

/-- Witness for C6 (amended): 7 operations in 2000 ms on 2 threads. -/
theorem printResults_rates_witness :
    (State.mk false 7 0).totalOperations = 7 ∧
      Int.tdiv (2000000000 - (State.mk false 7 0).startTime) 1000000 = 2000 ∧
      (0 : Int) ≤ 7 ∧ (7 : Int) * 1000 < 2 ^ (51 : ℕ) ∧ (0 : Int) < 2000 ∧
      (2000 : Int) < 2 ^ (53 : ℕ) ∧ 1 ≤ 2 ∧ 2 < 2 ^ (32 : ℕ) ∧
      (7 : Int) * 1000 / 2000 = 3 ∧ ¬ (2000 : Int) ∣ 7 * 1000 ∧
      ∃ r opsPerSec, printResults (State.mk false 7 0) 2000000000 2 = .ok r ∧
        r.finalOperations = 7 ∧ r.numThreads = 2 ∧
        r.opsPerSec = some opsPerSec ∧
        7 * 1000 / 2000 - 1 ≤ opsPerSec ∧ opsPerSec ≤ 7 * 1000 / 2000 ∧
        (¬ (2000 : Int) ∣ 7 * 1000 → opsPerSec = 7 * 1000 / 2000) ∧
        r.cpuScore = some (opsPerSec / ((2 : Nat) : Int)) :=
  ⟨by decide, by decide, by decide, by norm_num, by decide, by norm_num, by decide,
    by norm_num, by decide, by decide,
    printResults_rates (State.mk false 7 0) 2000000000 7 2000 2 (by decide) (by decide)
      (by decide) (by norm_num) (by decide) (by norm_num) (by decide) (by norm_num)⟩

theorem roundDouble_17_ms : roundDouble ((17 : ℚ) / 1000) = 4899916394579100 * 2 ^ (-58 : Int) := by
  have h := roundDouble_eval (17 / 1000) (-6) 4899916394579100 (by norm_num) (by norm_num)
    (by norm_num) (by norm_num) (by norm_num)
  norm_num at h ⊢
  exact h

theorem roundDouble_17_rate :
    roundDouble ((17 : ℚ) / (4899916394579100 * 2 ^ (-58 : Int)))
      = 8796093022207999 * 2 ^ (-43 : Int) := by
  have h := roundDouble_eval (17 / (4899916394579100 * 2 ^ (-58 : Int))) 9 8796093022207999
    (by norm_num) (by norm_num) (by norm_num) (by norm_num) (by norm_num)
  norm_num at h ⊢
  exact h

theorem roundDouble_17_score :
    roundDouble ((8796093022207999 : ℚ) * 2 ^ (-43 : Int) / 4)
      = 8796093022207999 * 2 ^ (-45 : Int) := by
  have h := roundDouble_eval (8796093022207999 * 2 ^ (-43 : Int) / 4) 7 8796093022207999
    (by norm_num) (by norm_num) (by norm_num) (by norm_num) (by norm_num)
  norm_num at h ⊢
  exact h

theorem roundDouble_1_ms : roundDouble ((1 : ℚ) / 1000) = 4611686018427388 * 2 ^ (-62 : Int) := by
  have h := roundDouble_eval (1 / 1000) (-10) 4611686018427388 (by norm_num) (by norm_num)
    (by norm_num) (by norm_num) (by norm_num)
  norm_num at h ⊢
  exact h

theorem roundDouble_pow_62 : roundDouble (4611686018427387904 : ℚ) = 4611686018427387904 := by
  have h := roundDouble_eval 4611686018427387904 62 4503599627370496 (by norm_num)
    (by norm_num) (by norm_num) (by norm_num) (by norm_num)
  norm_num at h ⊢
  exact h

theorem roundDouble_pow_62_rate :
    roundDouble ((4611686018427387904 : ℚ) / (4611686018427388 * 2 ^ (-62 : Int)))
      = 4611686018427387904000 := by
  have h := roundDouble_eval (4611686018427387904 / (4611686018427388 * 2 ^ (-62 : Int))) 71
    8796093022208000 (by norm_num) (by norm_num) (by norm_num) (by norm_num) (by norm_num)
  norm_num at h ⊢
  exact h

/-- C6 (as stated) fails for 17 operations in 17 ms on 4 threads: the `double` quotient
`17 / 0.017` is `1000 - 2^-43`, so Ops/sec is 999 and CPU Score 249, where the exact
quotients give 1000 and 250.  It also fails outside the range of `long long`: for `2^62`
operations in 1 ms on one thread the rate is `2^62 * 1000 > 2^63`, and the conversion of the
quotient to `long long` has no defined value. -/
theorem printResults_rates_rounding :
    ((17 : Int) * 1000 / 17 = 1000 ∧ (17 : Int) * 1000 / 17 / 4 = 250 ∧
      ⌊((17 : Int) : ℚ) / (((17 : Int) : ℚ) / 1000)⌋ = 1000 ∧
      ∃ r, printResults (State.mk false 17 0) 17000000 4 = .ok r ∧
        r.opsPerSec = some 999 ∧ r.cpuScore = some 249) ∧
      ∃ r, printResults (State.mk false 4611686018427387904 0) 1000000 1 = .ok r ∧
        r.opsPerSec = none ∧ r.cpuScore = none := by
  have e17 : roundDouble (17 : ℚ) = 17 := by
    have := roundDouble_intCast 17 (by norm_num) (by norm_num)
    simpa using this
  have e4 : roundDouble (4 : ℚ) = 4 := by
    have := roundDouble_intCast 4 (by norm_num) (by norm_num)
    simpa using this
  have e1 : roundDouble (1 : ℚ) = 1 := by
    have := roundDouble_intCast 1 (by norm_num) (by norm_num)
    simpa using this
  have hbig : castInt64 (4611686018427387904000 : ℚ) = none := by
    have hfl : ⌊(4611686018427387904000 : ℚ)⌋ = 4611686018427387904000 := by
      rw [Int.floor_eq_iff]
      norm_num
    unfold castInt64
    rw [truncate_of_nonneg _ (by norm_num), hfl]
    rw [if_neg (by norm_num)]
  refine ⟨⟨by decide, by decide, ?_, _,
    printResults_eq (State.mk false 17 0) 17000000 17 17 4 rfl (by decide) (by decide)
      (by decide), ?_, ?_⟩, _,
    printResults_eq (State.mk false 4611686018427387904 0) 1000000 4611686018427387904 1 1 rfl
      (by decide) (by decide) (by decide), ?_, ?_⟩
  · rw [Int.floor_eq_iff]
    norm_num
  · simp only [Int.cast_ofNat, e17, roundDouble_17_ms, roundDouble_17_rate]
    apply castInt64_of_floor _ (by norm_num) _ _ (by norm_num)
    rw [Int.floor_eq_iff]
    norm_num
  · simp only [Int.cast_ofNat, Nat.cast_ofNat, e17, e4, roundDouble_17_ms, roundDouble_17_rate,
      roundDouble_17_score]
    apply castInt64_of_floor _ (by norm_num) _ _ (by norm_num)
    rw [Int.floor_eq_iff]
    norm_num
  · simp only [Int.cast_ofNat, Int.cast_one, e1, roundDouble_1_ms, roundDouble_pow_62,
      roundDouble_pow_62_rate]
    exact hbig
  · simp only [Int.cast_ofNat, Int.cast_one, Nat.cast_one, e1, div_one, roundDouble_1_ms,
      roundDouble_pow_62, roundDouble_pow_62_rate]
    have e : roundDouble (4611686018427387904000 : ℚ) = 4611686018427387904000 := by
      have h := roundDouble_eval 4611686018427387904000 71 8796093022208000 (by norm_num)
        (by norm_num) (by norm_num) (by norm_num) (by norm_num)
      norm_num at h ⊢
      exact h
    rw [e]
    exact hbig


/-! ## `workerThread` -/

theorem dispatch_of_draw (task operations : Int) (h1 : 1 ≤ task) (h5 : task ≤ 5) :
    dispatch task operations = (some (matchingTask task), wrapInt64 (operations + 1)) := by
  have h : task = 1 ∨ task = 2 ∨ task = 3 ∨ task = 4 ∨ task = 5 := by omega
  rcases h with rfl | rfl | rfl | rfl | rfl <;> rfl

/-- The loop entered with the counter at `operations`: `k` draws in `[1, 5]` read with the
flag true, then the flag false, give the counter `operations + k` and the matching calls. -/
theorem workerLoop_eq (restFlags : List Bool) (restDraws : List Int) :
    ∀ (draws : List Int) (operations : Int) (calls : List Task),
      (∀ d ∈ draws, 1 ≤ d ∧ d ≤ 5) → 0 ≤ operations →
      operations + (draws.length : Int) ≤ LLONG_MAX →
      workerLoop (List.replicate draws.length true ++ false :: restFlags) (draws ++ restDraws)
          operations calls
        = .ok (operations + (draws.length : Int), calls ++ draws.map matchingTask) := by
  intro draws
  induction draws with
  | nil =>
    intro operations calls _ _ _
    simp [workerLoop]
  | cons d draws ih =>
    intro operations calls hdraws h0 hmax
    have hd := hdraws d (List.mem_cons_self d draws)
    simp only [List.length_cons, List.replicate_succ, List.cons_append, workerLoop,
      dispatch_of_draw d operations hd.1 hd.2, List.append_eq]
    simp only [List.length_cons, Nat.cast_add, Nat.cast_one] at hmax
    unfold LLONG_MAX at hmax
    have hlen : (0 : Int) ≤ (draws.length : Int) := Int.natCast_nonneg _
    have hw : wrapInt64 (operations + 1) = operations + 1 :=
      wrapInt64_of_range _ (by omega) (by omega)
    rw [hw, ih (operations + 1) _ (fun x hx => hdraws x (List.mem_cons_of_mem d hx))
      (by omega) (by unfold LLONG_MAX; omega)]
    simp only [List.map_cons, List.append_assoc, List.singleton_append, Nat.cast_add,
      Nat.cast_one]
    congr 2
    ring

/-- C10. Every iteration entered with the flag true draws a task in `[1, 5]`, makes exactly
the matching call and adds exactly 1 to the local counter; the flag is read only at the
top of an iteration, so `k` draws followed by the flag reading false give the tally `k`,
and the tally is 0 when the flag is false at the first check. -/
theorem workerLoop_tally (draws : List Int) (hdraws : ∀ d ∈ draws, 1 ≤ d ∧ d ≤ 5)
    (hlen : (draws.length : Int) ≤ LLONG_MAX) (restFlags : List Bool) (restDraws : List Int) :
    (∀ d operations, 1 ≤ d → d ≤ 5 → 0 ≤ operations → operations < LLONG_MAX →
        dispatch d operations = (some (matchingTask d), operations + 1)) ∧
      workerLoop (List.replicate draws.length true ++ false :: restFlags) (draws ++ restDraws)
          0 []
        = .ok ((draws.length : Int), draws.map matchingTask) ∧
      workerLoop (false :: restFlags) restDraws 0 [] = .ok (0, []) := by
  refine ⟨?_, ?_, rfl⟩
  · intro d operations h1 h5 h0 hmax
    unfold LLONG_MAX at hmax
    rw [dispatch_of_draw d operations h1 h5, wrapInt64_of_range _ (by omega) (by omega)]
  · have := workerLoop_eq restFlags restDraws draws 0 [] hdraws le_rfl (by simpa using hlen)
    simpa using this

/-- Witness for C10: the draws 1, 5, 3 and then the flag false give the tally 3. -/
theorem workerLoop_tally_witness :
    (∀ d ∈ ([1, 5, 3] : List Int), 1 ≤ d ∧ d ≤ 5) ∧
      (([1, 5, 3] : List Int).length : Int) ≤ LLONG_MAX ∧
      workerLoop [true, true, true, false] [1, 5, 3] 0 []
        = .ok (3, [.primes 100000, .sort 1000000, .math 100000]) ∧
      ((∀ d operations, 1 ≤ d → d ≤ 5 → 0 ≤ operations → operations < LLONG_MAX →
          dispatch d operations = (some (matchingTask d), operations + 1)) ∧
        workerLoop (List.replicate ([1, 5, 3] : List Int).length true ++ false :: [])
            ([1, 5, 3] ++ []) 0 []
          = .ok ((([1, 5, 3] : List Int).length : Int), ([1, 5, 3] : List Int).map matchingTask) ∧
        workerLoop (false :: []) [] 0 [] = .ok (0, [])) :=
  ⟨by decide, by decide, by decide,
    workerLoop_tally [1, 5, 3] (by decide) (by decide) [] []⟩

/-! ## `runStressTest` -/

theorem launchLoop_eq (numThreads : Nat) :
    ∀ (fuel i : Nat) (threads : List Nat), i ≤ numThreads → numThreads ≤ i + fuel →
      launchLoop numThreads fuel i threads
        = .ok (threads ++ List.range' i (numThreads - i)) := by
  intro fuel
  induction fuel with
  | zero =>
    intro i threads hi hfuel
    have h : i = numThreads := by omega
    subst h
    simp [launchLoop]
  | succ fuel ih =>
    intro i threads hi hfuel
    unfold launchLoop
    by_cases hlt : i < numThreads
    · simp only [hlt, if_true]
      rw [ih (i + 1) _ (by omega) (by omega), List.append_assoc]
      congr 2
      rw [show numThreads - i = (numThreads - (i + 1)) + 1 by omega, List.range'_succ]
      rfl
    · have h : i = numThreads := by omega
      subst h
      simp

theorem workerThread_eq (s : State) (w : WorkerTrace) (c : Int) (calls : List Task)
    (h : workerLoop w.flags w.draws 0 [] = .ok (c, calls)) :
    workerThread s w
      = .ok ({ s with totalOperations := wrapInt64 (s.totalOperations + c) }, calls) := by
  unfold workerThread
  rw [h]

/-- The workers of `order` add their tallies one after the other. -/
theorem finishWorkers_eq (traces : Nat → WorkerTrace) (c : Nat → Int) :
    ∀ (order : List Nat) (s : State),
      (∀ t ∈ order, ∃ calls,
        workerLoop (traces t).flags (traces t).draws 0 [] = .ok (c t, calls)) →
      finishWorkers traces order s
        = .ok { s with
            totalOperations :=
              order.foldl (fun acc t => wrapInt64 (acc + c t)) s.totalOperations } := by
  intro order
  induction order with
  | nil => intro s _; rfl
  | cons t rest ih =>
    intro s h
    obtain ⟨calls, hcalls⟩ := h t (List.mem_cons_self t rest)
    unfold finishWorkers
    rw [workerThread_eq s (traces t) (c t) calls hcalls]
    simp only
    rw [ih _ (fun x hx => h x (List.mem_cons_of_mem t hx))]
    rfl

theorem foldl_wrapInt64 (c : Nat → Int) :
    ∀ (order : List Nat) (init : Int),
      order.foldl (fun acc t => wrapInt64 (acc + c t)) (wrapInt64 init)
        = wrapInt64 (init + (order.map c).sum) := by
  intro order
  induction order with
  | nil => intro init; simp
  | cons t rest ih =>
    intro init
    simp only [List.foldl_cons, List.map_cons, List.sum_cons]
    rw [wrapInt64_add_wrap, ih (init + c t), add_assoc]

theorem sum_map_range (c : Nat → Int) (K : Nat) :
    ((List.range K).map c).sum = ∑ t in Finset.range K, c t := by
  induction K with
  | zero => simp
  | succ K ih => simp [List.range_succ, Finset.sum_range_succ, ih]

/-- The state and the workers launched at the end of a run in which every worker leaves
its loop: the counter holds the 64-bit sum of the tallies of this run. -/
theorem runStressTest_eq (s : State) (durationSeconds now : Int) (K : Nat)
    (traces : Nat → WorkerTrace) (order : List Nat) (c : Nat → Int)
    (horder : order.Perm (List.range K)) (hfin : WorkersFinish traces K c) :
    runStressTest s durationSeconds now K traces order
      = .ok ({ running := false
               totalOperations := wrapInt64 (∑ t in Finset.range K, c t)
               startTime := now }, List.range K) := by
  unfold runStressTest
  simp only [launchLoop_eq K K 0 [] (Nat.zero_le K) (by omega), List.nil_append, Nat.sub_zero]
  rw [finishWorkers_eq traces c order _
    (fun t ht => hfin t (List.mem_range.1 (horder.mem_iff.1 ht)))]
  simp only
  have h0 : (0 : Int) = wrapInt64 0 := by decide
  have hsum : (order.map c).sum = ∑ t in Finset.range K, c t := by
    rw [(horder.map c).sum_eq, sum_map_range]
  conv_lhs => rw [h0]
  rw [foldl_wrapInt64, zero_add, hsum, List.range_eq_range']

/-- C7. `runStressTest` resets the counter before the workers are launched: whatever the
prior value of `totalOperations`, the value after a run is the sum of the tallies of that
run, and a second run counts only its own operations. -/
theorem runStressTest_counts_only_this_run (s : State)
    (d1 now1 : Int) (K1 : Nat) (traces1 : Nat → WorkerTrace) (order1 : List Nat) (c1 : Nat → Int)
    (d2 now2 : Int) (K2 : Nat) (traces2 : Nat → WorkerTrace) (order2 : List Nat) (c2 : Nat → Int)
    (horder1 : order1.Perm (List.range K1)) (hfin1 : WorkersFinish traces1 K1 c1)
    (hrange1 : InInt64 (∑ t in Finset.range K1, c1 t))
    (horder2 : order2.Perm (List.range K2)) (hfin2 : WorkersFinish traces2 K2 c2)
    (hrange2 : InInt64 (∑ t in Finset.range K2, c2 t)) :
    (∀ prior : Int,
        runStressTest { s with totalOperations := prior } d1 now1 K1 traces1 order1
          = runStressTest s d1 now1 K1 traces1 order1) ∧
      ∃ s1 threads1, runStressTest s d1 now1 K1 traces1 order1 = .ok (s1, threads1) ∧
        s1.totalOperations = ∑ t in Finset.range K1, c1 t ∧
        ∃ s2 threads2, runStressTest s1 d2 now2 K2 traces2 order2 = .ok (s2, threads2) ∧
          s2.totalOperations = ∑ t in Finset.range K2, c2 t := by
  refine ⟨fun prior => rfl, _, _, runStressTest_eq s d1 now1 K1 traces1 order1 c1 horder1 hfin1,
    wrapInt64_of_range _ hrange1.1 hrange1.2, _, _,
    runStressTest_eq _ d2 now2 K2 traces2 order2 c2 horder2 hfin2,
    wrapInt64_of_range _ hrange2.1 hrange2.2⟩

theorem exampleTraces_finish : WorkersFinish exampleTraces 3 (fun t => (t : Int)) := by
  intro t ht
  have h : t = 0 ∨ t = 1 ∨ t = 2 := by omega
  rcases h with rfl | rfl | rfl
  · exact ⟨_, rfl⟩
  · exact ⟨_, rfl⟩
  · exact ⟨_, rfl⟩

theorem exampleTraces_sum : InInt64 (∑ t in Finset.range 3, (fun t : Nat => (t : Int)) t) := by
  unfold InInt64
  simp [Finset.sum_range_succ]

/-- Witness for C7: two runs with three workers from a state whose counter holds 77. -/
theorem runStressTest_counts_only_this_run_witness :
    [2, 0, 1].Perm (List.range 3) ∧ [1, 2, 0].Perm (List.range 3) ∧
      WorkersFinish exampleTraces 3 (fun t => (t : Int)) ∧
      InInt64 (∑ t in Finset.range 3, (fun t : Nat => (t : Int)) t) ∧
      runStressTest (State.mk false 77 0) 5 1000 3 exampleTraces [2, 0, 1]
        = .ok (State.mk false 3 1000, [0, 1, 2]) ∧
      runStressTest (State.mk false 3 1000) 5 9000 3 exampleTraces [1, 2, 0]
        = .ok (State.mk false 3 9000, [0, 1, 2]) ∧
      ((∀ prior : Int,
          runStressTest { (State.mk false 77 0) with totalOperations := prior } 5 1000 3
              exampleTraces [2, 0, 1]
            = runStressTest (State.mk false 77 0) 5 1000 3 exampleTraces [2, 0, 1]) ∧
        ∃ s1 threads1,
          runStressTest (State.mk false 77 0) 5 1000 3 exampleTraces [2, 0, 1]
            = .ok (s1, threads1) ∧
          s1.totalOperations = ∑ t in Finset.range 3, (fun t : Nat => (t : Int)) t ∧
          ∃ s2 threads2, runStressTest s1 5 9000 3 exampleTraces [1, 2, 0] = .ok (s2, threads2) ∧
            s2.totalOperations = ∑ t in Finset.range 3, (fun t : Nat => (t : Int)) t) :=
  ⟨by decide, by decide, exampleTraces_finish, exampleTraces_sum, by decide, by decide,
    runStressTest_counts_only_this_run (State.mk false 77 0)
      5 1000 3 exampleTraces [2, 0, 1] (fun t => (t : Int))
      5 9000 3 exampleTraces [1, 2, 0] (fun t => (t : Int))
      (by decide) exampleTraces_finish exampleTraces_sum
      (by decide) exampleTraces_finish exampleTraces_sum⟩

/-- C9. In a run with `K` workers whose tallies at exit are `c 0, ..., c (K-1)`, each worker
adds its tally to the counter exactly once, and after all workers have exited the counter
holds `c 0 + ... + c (K-1)`, for every order in which the `K` additions take effect. -/
theorem runStressTest_aggregates_tallies (s : State) (durationSeconds now : Int) (K : Nat)
    (traces : Nat → WorkerTrace) (c : Nat → Int) (hfin : WorkersFinish traces K c) :
    (∀ t, t < K → ∀ s0 : State, ∃ calls,
        workerThread s0 (traces t)
          = .ok ({ s0 with totalOperations := wrapInt64 (s0.totalOperations + c t) }, calls)) ∧
      ∀ order : List Nat, order.Perm (List.range K) →
        ∃ s1, runStressTest s durationSeconds now K traces order = .ok (s1, List.range K) ∧
          s1.totalOperations = wrapInt64 (∑ t in Finset.range K, c t) ∧
          (InInt64 (∑ t in Finset.range K, c t) →
            s1.totalOperations = ∑ t in Finset.range K, c t) := by
  constructor
  · intro t ht s0
    obtain ⟨calls, hcalls⟩ := hfin t ht
    exact ⟨calls, workerThread_eq s0 (traces t) (c t) calls hcalls⟩
  · intro order horder
    exact ⟨_, runStressTest_eq s durationSeconds now K traces order c horder hfin, rfl,
      fun hrange => wrapInt64_of_range _ hrange.1 hrange.2⟩

/-- Witness for C9: three workers with the tallies 0, 1, 2. -/
theorem runStressTest_aggregates_tallies_witness :
    WorkersFinish exampleTraces 3 (fun t => (t : Int)) ∧
      runStressTest (State.mk true 41 7) 5 1000 3 exampleTraces [1, 0, 2]
        = .ok (State.mk false 3 1000, [0, 1, 2]) ∧
      ((∀ t, t < 3 → ∀ s0 : State, ∃ calls,
          workerThread s0 (exampleTraces t)
            = .ok ({ s0 with
                totalOperations :=
                  wrapInt64 (s0.totalOperations + (fun t : Nat => (t : Int)) t) }, calls)) ∧
        ∀ order : List Nat, order.Perm (List.range 3) →
          ∃ s1, runStressTest (State.mk true 41 7) 5 1000 3 exampleTraces order
              = .ok (s1, List.range 3) ∧
            s1.totalOperations = wrapInt64 (∑ t in Finset.range 3, (fun t : Nat => (t : Int)) t) ∧
            (InInt64 (∑ t in Finset.range 3, (fun t : Nat => (t : Int)) t) →
              s1.totalOperations = ∑ t in Finset.range 3, (fun t : Nat => (t : Int)) t)) :=
  ⟨exampleTraces_finish, by decide,
    runStressTest_aggregates_tallies (State.mk true 41 7) 5 1000 3 exampleTraces
      (fun t => (t : Int)) exampleTraces_finish⟩

/-- C8 (amended). The number of worker loops `runStressTest` launches equals the number
the platform query reports, also when that number is 0; when the reported number is at
least 1, at least one worker is launched and the thread count `printResults` divides by
is that number, which is not 0. -/
theorem runStressTest_launches_reported_count (s : State) (durationSeconds now : Int)
    (hardwareConcurrency : Nat) (traces : Nat → WorkerTrace) (order : List Nat) (c : Nat → Int)
    (horder : order.Perm (List.range hardwareConcurrency))
    (hfin : WorkersFinish traces hardwareConcurrency c) :
    ∃ s1 threads,
      runStressTest s durationSeconds now hardwareConcurrency traces order = .ok (s1, threads) ∧
      threads = List.range hardwareConcurrency ∧ threads.length = hardwareConcurrency ∧
      (1 ≤ hardwareConcurrency →
        1 ≤ threads.length ∧
        ∀ endTime : Int, Int.tdiv (endTime - s1.startTime) 1000000 ≠ 0 →
          ∃ r, printResults s1 endTime hardwareConcurrency = .ok r ∧
            r.numThreads = hardwareConcurrency ∧ r.numThreads ≠ 0) := by
  refine ⟨_, _, runStressTest_eq s durationSeconds now hardwareConcurrency traces order c
    horder hfin, rfl, List.length_range _, ?_⟩
  intro hone
  refine ⟨by rw [List.length_range]; exact hone, ?_⟩
  intro endTime hms
  have hK0 : hardwareConcurrency ≠ 0 := by omega
  obtain ⟨r, hr, hthreads⟩ := printResults_ok _ endTime hardwareConcurrency hms hK0
  exact ⟨r, hr, hthreads, by rw [hthreads]; exact hK0⟩

/-- Witness for C8 (amended): the query reports 3 and three workers are launched. -/
theorem runStressTest_launches_reported_count_witness :
    [2, 0, 1].Perm (List.range 3) ∧ WorkersFinish exampleTraces 3 (fun t => (t : Int)) ∧
      ∃ s1 threads,
        runStressTest (State.mk false 0 0) 5 1000 3 exampleTraces [2, 0, 1] = .ok (s1, threads) ∧
        threads = List.range 3 ∧ threads.length = 3 ∧
        (1 ≤ 3 →
          1 ≤ threads.length ∧
          ∀ endTime : Int, Int.tdiv (endTime - s1.startTime) 1000000 ≠ 0 →
            ∃ r, printResults s1 endTime 3 = .ok r ∧ r.numThreads = 3 ∧ r.numThreads ≠ 0) :=
  ⟨by decide, exampleTraces_finish,
    runStressTest_launches_reported_count (State.mk false 0 0) 5 1000 3 exampleTraces
      [2, 0, 1] (fun t => (t : Int)) (by decide) exampleTraces_finish⟩

/-- C8 (as stated) fails when the platform query returns 0: no worker is launched (there is
no fallback to 1), and `printResults` divides by the thread count 0. -/
theorem runStressTest_zero_reported :
    runStressTest (State.mk false 0 0) 5 1000 0 exampleTraces []
        = .ok (State.mk false 0 1000, []) ∧
      (∀ r, printResults (State.mk false 0 1000) 5000001000 0 ≠ .ok r) ∧
      printResults (State.mk false 0 1000) 5000001000 0 = .error .divByZero := by
  have h : printResults (State.mk false 0 1000) 5000001000 0 = .error .divByZero :=
    printResults_zero_threads _ _
  refine ⟨by decide, ?_, h⟩
  intro r hr
  rw [h] at hr
  exact Except.noConfusion hr

/-! ## Termination of the task functions -/

theorem primeLoop_exit (limit : Int) (n : Nat) (hge : ¬ (n : Int) < limit) (fuel : Nat)
    (primeSum : Int) : primeLoop limit fuel n primeSum = .ok primeSum := by
  cases fuel with
  | zero => simp [primeLoop, hge]
  | succ fuel => simp [primeLoop, hge]

theorem primeSumBelow_two : primeSumBelow 2 = 0 := by
  simp [primeSumBelow, Finset.sum_filter, Finset.sum_range_succ]
  decide

/-- Every budget of at least `limit - 2` iterations lets the outer loop of
`calculatePrimes` leave through its guard, with the sum of the primes below `limit`. -/
theorem primeLoop_from_start (limit : Int) (hmax : limit ≤ INT_MAX) (fuel : Nat)
    (hfuel : (limit - 2).toNat ≤ fuel) :
    primeLoop limit fuel 2 0 = .ok (primeSumBelow limit.toNat) := by
  by_cases h2 : 2 ≤ limit
  · have h := primeLoop_eq limit hmax fuel 2 le_rfl (by simpa using h2) (by omega)
    rw [primeSumBelow_two] at h
    exact h
  · rw [primeLoop_exit limit 2 (by omega)]
    congr 1
    have hcases : limit.toNat = 0 ∨ limit.toNat = 1 := by omega
    rcases hcases with h | h
    · rw [h]; simp [primeSumBelow]
    · rw [h]; simp [primeSumBelow, Finset.sum_filter, Finset.sum_range_succ]

theorem calculatePrimes_total (limit : Int) (hmax : limit ≤ INT_MAX) :
    calculatePrimes limit = .ok (primeSumBelow limit.toNat) :=
  primeLoop_from_start limit hmax _ le_rfl

theorem fibonacci_total (n : Int) (hmax : n < INT_MAX) : ∃ v, fibonacci n = .ok v := by
  by_cases h1 : n ≤ 1
  · exact ⟨n, by simp [fibonacci, h1]⟩
  · exact ⟨_, fibonacci_eq_fibBuffer n (by omega) hmax⟩

section MatrixTermination

variable {α : Type} [Add α] [Mul α]

theorem dotLoop_ne_outOfFuel (A B : List (List α)) (p i j : Nat) :
    ∀ (fuel k : Nat) (C : List (List α)), p ≤ k + fuel →
      dotLoop A B p i j fuel k C ≠ .error .outOfFuel := by
  intro fuel
  induction fuel with
  | zero =>
    intro k C hfuel
    have hk : ¬ k < p := by omega
    simp [dotLoop, hk]
  | succ fuel ih =>
    intro k C hfuel
    unfold dotLoop
    split
    · split
      · exact ih _ _ (by omega)
      · simp
    · simp

theorem colLoop_ne_outOfFuel (A B : List (List α)) (m p i : Nat) :
    ∀ (fuel j : Nat) (C : List (List α)), m ≤ j + fuel →
      colLoop A B m p i fuel j C ≠ .error .outOfFuel := by
  intro fuel
  induction fuel with
  | zero =>
    intro j C hfuel
    have hj : ¬ j < m := by omega
    simp [colLoop, hj]
  | succ fuel ih =>
    intro j C hfuel
    unfold colLoop
    split
    · split
      · rename_i e he
        intro hcon
        have : e = Fault.outOfFuel := by injection hcon
        rw [this] at he
        exact dotLoop_ne_outOfFuel A B p i j p 0 C (by omega) he
      · exact ih _ _ (by omega)
    · simp

theorem rowLoop_ne_outOfFuel (A B : List (List α)) (n m p : Nat) :
    ∀ (fuel i : Nat) (C : List (List α)), n ≤ i + fuel →
      rowLoop A B n m p fuel i C ≠ .error .outOfFuel := by
  intro fuel
  induction fuel with
  | zero =>
    intro i C hfuel
    have hi : ¬ i < n := by omega
    simp [rowLoop, hi]
  | succ fuel ih =>
    intro i C hfuel
    unfold rowLoop
    split
    · split
      · rename_i e he
        intro hcon
        have : e = Fault.outOfFuel := by injection hcon
        rw [this] at he
        exact colLoop_ne_outOfFuel A B m p i m 0 C (by omega) he
      · exact ih _ _ (by omega)
    · simp

/-- On every pair of arguments the three loops leave through their guards or stop at an
access outside a vector: the budget is never the reason for stopping. -/
theorem matrixMultiply_ne_outOfFuel [Zero α] (A B : List (List α)) :
    matrixMultiply A B ≠ .error .outOfFuel := by
  unfold matrixMultiply
  split
  · simp
  · exact rowLoop_ne_outOfFuel A B _ _ _ _ 0 _ (by omega)

end MatrixTermination

theorem sortingPass_ok (size : Int) (h0 : 0 ≤ size) (shuffle : List Int → List Int) :
    ∃ data, sortingPass size shuffle = .ok data := by
  have hneg : ¬ size < 0 := by omega
  unfold sortingPass
  simp only [hneg, if_false]
  exact ⟨_, rfl⟩

/-- For `size ≥ 0` the loop of `intensiveSorting` completes the iterations up to 10, one
entry of the trace per iteration, whatever the shuffle does. -/
theorem sortingLoop_length (size : Int) (h0 : 0 ≤ size) (shuffle : Nat → List Int → List Int) :
    ∀ (fuel iteration : Nat) (trace : List (List Int)), iteration ≤ 10 →
      10 ≤ iteration + fuel →
      ∃ trace1, sortingLoop size shuffle fuel iteration trace = .ok trace1 ∧
        trace1.length = trace.length + (10 - iteration) := by
  intro fuel
  induction fuel with
  | zero =>
    intro iteration trace hle hfuel
    have h10 : ¬ iteration < 10 := by omega
    exact ⟨trace, by simp [sortingLoop, h10], by omega⟩
  | succ fuel ih =>
    intro iteration trace hle hfuel
    unfold sortingLoop
    by_cases hlt : iteration < 10
    · obtain ⟨data, hdata⟩ := sortingPass_ok size h0 (shuffle iteration)
      simp only [hlt, if_true, hdata]
      obtain ⟨trace1, hrun, hlen⟩ := ih (iteration + 1) (trace ++ [data]) (by omega) (by omega)
      refine ⟨trace1, hrun, ?_⟩
      rw [hlen, List.length_append, List.length_singleton]
      omega
    · exact ⟨trace, by simp [hlt], by omega⟩

theorem sortingLoop_ne_outOfFuel (size : Int) (shuffle : Nat → List Int → List Int) :
    ∀ (fuel iteration : Nat) (trace : List (List Int)), 10 ≤ iteration + fuel →
      sortingLoop size shuffle fuel iteration trace ≠ .error .outOfFuel := by
  intro fuel
  induction fuel with
  | zero =>
    intro iteration trace hfuel
    have h10 : ¬ iteration < 10 := by omega
    simp [sortingLoop, h10]
  | succ fuel ih =>
    intro iteration trace hfuel
    unfold sortingLoop
    split
    · split
      · rename_i e he
        intro hcon
        have : e = Fault.outOfFuel := by injection hcon
        rw [this] at he
        unfold sortingPass at he
        split at he
        · exact absurd he (by simp)
        · exact absurd he (by simp)
      · exact ih _ _ (by omega)
    · simp

/-- C11 (amended). Every task function is finite.  For every `int` limit
`calculatePrimes(limit)` returns (with any budget of at least `limit - 2` iterations); for
every `int` `n` below the maximum `int`, `fibonacci(n)` returns; for conformant matrices
with `p ≥ 1`, `matrixMultiply` returns, and on no pair of arguments do its loops outlast
their budget; for `size ≥ 0`, `intensiveSorting` performs exactly 10 iterations, and for no
size does its loop outlast its budget. -/
theorem taskLibrary_finite {α : Type} [Zero α] [Add α] [Mul α] (limit n size : Int)
    (A B : List (List α)) (rows p cols : Nat) (shuffle : Nat → List Int → List Int)
    (hlimit : limit ≤ INT_MAX) (hn : n < INT_MAX) (hA : IsMatrix A rows p)
    (hB : IsMatrix B p cols) (hp : 1 ≤ p) (hsize : 0 ≤ size) :
    (∃ v, calculatePrimes limit = .ok v ∧
        ∀ fuel, (limit - 2).toNat ≤ fuel → primeLoop limit fuel 2 0 = .ok v) ∧
      (∃ v, fibonacci n = .ok v) ∧
      (∃ C, matrixMultiply A B = .ok C) ∧
      (∃ trace, intensiveSorting size shuffle = .ok trace ∧ trace.length = 10) ∧
      (∀ A1 B1 : List (List α), matrixMultiply A1 B1 ≠ .error .outOfFuel) ∧
      (∀ (size1 : Int) (shuffle1 : Nat → List Int → List Int),
        intensiveSorting size1 shuffle1 ≠ .error .outOfFuel) := by
  refine ⟨⟨_, calculatePrimes_total limit hlimit,
      fun fuel hfuel => primeLoop_from_start limit hlimit fuel hfuel⟩,
    fibonacci_total n hn, ?_, ?_, fun A1 B1 => matrixMultiply_ne_outOfFuel A1 B1,
    fun size1 shuffle1 => sortingLoop_ne_outOfFuel size1 shuffle1 10 0 [] (by omega)⟩
  · obtain ⟨C, hC, _⟩ := matrixMultiply_spec A B hA hB hp
    exact ⟨C, hC⟩
  · obtain ⟨trace, hrun, hlen⟩ := sortingLoop_length size hsize shuffle 10 0 [] (by omega)
      (by omega)
    exact ⟨trace, hrun, by simpa using hlen⟩

/-- Witness for C11 (amended): limit 10, `n = 10`, a `2 × 2` by `2 × 3` product, size 3. -/
theorem taskLibrary_finite_witness :
    (10 : Int) ≤ INT_MAX ∧ (10 : Int) < INT_MAX ∧
      IsMatrix ([[1, 2], [3, 4]] : List (List Int)) 2 2 ∧
      IsMatrix ([[5, 6, 1], [7, 8, 1]] : List (List Int)) 2 3 ∧ 1 ≤ 2 ∧ (0 : Int) ≤ 3 ∧
      ((∃ v, calculatePrimes 10 = .ok v ∧
          ∀ fuel, ((10 : Int) - 2).toNat ≤ fuel → primeLoop 10 fuel 2 0 = .ok v) ∧
        (∃ v, fibonacci 10 = .ok v) ∧
        (∃ C, matrixMultiply ([[1, 2], [3, 4]] : List (List Int)) [[5, 6, 1], [7, 8, 1]]
          = .ok C) ∧
        (∃ trace, intensiveSorting 3 (fun _ l => l.reverse) = .ok trace ∧ trace.length = 10) ∧
        (∀ A1 B1 : List (List Int), matrixMultiply A1 B1 ≠ .error .outOfFuel) ∧
        (∀ (size1 : Int) (shuffle1 : Nat → List Int → List Int),
          intensiveSorting size1 shuffle1 ≠ .error .outOfFuel)) :=
  ⟨by decide, by decide, by simp [IsMatrix], by simp [IsMatrix], by decide, by decide,
    taskLibrary_finite 10 10 3 [[1, 2], [3, 4]] [[5, 6, 1], [7, 8, 1]] 2 2 3
      (fun _ l => l.reverse) (by decide) (by decide) (by simp [IsMatrix]) (by simp [IsMatrix])
      (by decide) (by decide)⟩

/-- C11 (as stated) fails outside these domains: with size `-1` the array cannot be built
and no iteration of `intensiveSorting` is completed, and for the conformant shapes
`0 × 0` and `0 × 0` `matrixMultiply` stops at the read of `B[0]` without a result. -/
theorem taskLibrary_not_total :
    intensiveSorting (-1) (fun _ l => l) = .error .badAlloc ∧
      (¬ ∃ trace, intensiveSorting (-1) (fun _ l => l) = .ok trace ∧ trace.length = 10) ∧
      IsMatrix ([] : List (List Int)) 0 0 ∧
      matrixMultiply ([] : List (List Int)) [] = .error .outOfRange := by
  have h : intensiveSorting (-1) (fun _ l => l) = .error .badAlloc := by decide
  refine ⟨h, ?_, by simp [IsMatrix], by decide⟩
  rintro ⟨trace, htrace, _⟩
  rw [h] at htrace
  exact Except.noConfusion htrace

/-! ## `printResults`: the divisions -/

/-- C12. `printResults` divides without a guard: Ops/sec and CPU Score are both defined
exactly when the elapsed time is not 0 ms and the thread count is not 0; with an elapsed
time of 0 ms the rate computation divides by zero, which happens when the results of a run
are printed less than a millisecond after its start.  When both divisors are non-zero and
the count, the elapsed time and the thread count are in the range `count * 1000 < 2^51`,
`ms < 2^53`, `K < 2^32`, both reported values are integers in the range of `long long`. -/
theorem printResults_unguarded (s : State) (endTime : Int) (K : Nat) :
    ((∃ r, printResults s endTime K = .ok r) ↔
        (Int.tdiv (endTime - s.startTime) 1000000 ≠ 0 ∧ K ≠ 0)) ∧
      (Int.tdiv (endTime - s.startTime) 1000000 = 0 →
        printResults s endTime K = .error .divByZero) ∧
      (K = 0 → printResults s endTime K = .error .divByZero) ∧
      (∀ (now : Int) (traces : Nat → WorkerTrace) (order : List Nat) (c : Nat → Int),
        order.Perm (List.range K) → WorkersFinish traces K c →
        Int.tdiv (endTime - now) 1000000 = 0 →
        ∃ s1 threads, runStressTest s 0 now K traces order = .ok (s1, threads) ∧
          printResults s1 endTime K = .error .divByZero) ∧
      (0 ≤ s.totalOperations → s.totalOperations * 1000 < 2 ^ (51 : ℕ) →
        0 < Int.tdiv (endTime - s.startTime) 1000000 →
        Int.tdiv (endTime - s.startTime) 1000000 < 2 ^ (53 : ℕ) → 1 ≤ K → K < 2 ^ (32 : ℕ) →
        ∃ r opsPerSec cpuScore, printResults s endTime K = .ok r ∧
          r.opsPerSec = some opsPerSec ∧ r.cpuScore = some cpuScore) := by
  have hzero : Int.tdiv (endTime - s.startTime) 1000000 = 0 →
      printResults s endTime K = .error .divByZero :=
    printResults_zero_elapsed s endTime K
  have hK : K = 0 → printResults s endTime K = .error .divByZero := by
    intro h
    rw [h]
    exact printResults_zero_threads s endTime
  refine ⟨⟨?_, ?_⟩, hzero, hK, ?_, ?_⟩
  · rintro ⟨r, hr⟩
    constructor
    · intro h
      rw [hzero h] at hr
      exact Except.noConfusion hr
    · intro h
      rw [hK h] at hr
      exact Except.noConfusion hr
  · rintro ⟨hms, hK0⟩
    obtain ⟨r, hr, _⟩ := printResults_ok s endTime K hms hK0
    exact ⟨r, hr⟩
  · intro now traces order c horder hfin hms
    exact ⟨_, _, runStressTest_eq s 0 now K traces order c horder hfin,
      printResults_zero_elapsed _ endTime K hms⟩
  · intro hops hopsmax hms hmsmax hK1 hKmax
    obtain ⟨opsPerSec, hrate, hscore, _⟩ :=
      double_rates s.totalOperations (Int.tdiv (endTime - s.startTime) 1000000) K hops hopsmax
        hms hmsmax hK1 hKmax
    exact ⟨_, opsPerSec, _,
      printResults_eq s endTime s.totalOperations (Int.tdiv (endTime - s.startTime) 1000000) K
        rfl rfl hms.ne' (by omega), hrate, hscore⟩

/-- Witness for C12: a run of duration 0 printed at the clock reading of its start, and
7 operations printed after 2000 ms on 2 threads. -/
theorem printResults_unguarded_witness :
    Int.tdiv (1000 - (State.mk false 3 1000).startTime) 1000000 = 0 ∧
      printResults (State.mk false 3 1000) 1000 3 = .error .divByZero ∧
      [2, 0, 1].Perm (List.range 3) ∧ WorkersFinish exampleTraces 3 (fun t => (t : Int)) ∧
      Int.tdiv ((1000 : Int) - 1000) 1000000 = 0 ∧
      (∃ s1 threads, runStressTest (State.mk false 3 1000) 0 1000 3 exampleTraces [2, 0, 1]
          = .ok (s1, threads) ∧
        printResults s1 1000 3 = .error .divByZero) ∧
      0 ≤ (State.mk false 7 0).totalOperations ∧
      (State.mk false 7 0).totalOperations * 1000 < 2 ^ (51 : ℕ) ∧
      0 < Int.tdiv (2000000000 - (State.mk false 7 0).startTime) 1000000 ∧
      Int.tdiv (2000000000 - (State.mk false 7 0).startTime) 1000000 < 2 ^ (53 : ℕ) ∧
      1 ≤ 2 ∧ 2 < 2 ^ (32 : ℕ) ∧
      ∃ r opsPerSec cpuScore, printResults (State.mk false 7 0) 2000000000 2 = .ok r ∧
        r.opsPerSec = some opsPerSec ∧ r.cpuScore = some cpuScore :=
  ⟨by decide,
    (printResults_unguarded (State.mk false 3 1000) 1000 3).2.1 (by decide),
    by decide, exampleTraces_finish, by decide,
    (printResults_unguarded (State.mk false 3 1000) 1000 3).2.2.2.1 1000 exampleTraces [2, 0, 1]
      (fun t => (t : Int)) (by decide) exampleTraces_finish (by decide),
    by decide, by decide, by decide, by decide, by decide, by decide,
    (printResults_unguarded (State.mk false 7 0) 2000000000 2).2.2.2.2 (by decide) (by decide)
      (by decide) (by decide) (by decide) (by decide)⟩


/-! ## One pass of `intensiveSorting` -/

/-- After the ascending sort the array is the identity permutation again. -/
theorem ascending_sort_eq (k : Nat) (shuffle : List Int → List Int)
    (hshuffle : ∀ l, (shuffle l).Perm l) :
    List.insertionSort (· ≤ ·) (shuffle (iota (List.replicate k 0) 0)) = identitySequence k := by
  rw [iota_replicate]
  apply List.eq_of_perm_of_sorted (r := (· ≤ ·))
  · exact (List.perm_insertionSort _ _).trans (hshuffle _)
  · exact List.sorted_insertionSort _ _
  · exact identitySequence_sorted k

/-- C13. For every `size ≥ 0` and every permutation produced by the shuffle, one iteration
of `intensiveSorting` ends with the array `size-1, size-2, ..., 0`: the result does not
depend on the shuffle, and the final descending sort leaves the reversed ascending array
unchanged. -/
theorem sortingPass_descending (size : Int) (h0 : 0 ≤ size)
    (shuffle shuffle1 : List Int → List Int) (hshuffle : ∀ l, (shuffle l).Perm l)
    (hshuffle1 : ∀ l, (shuffle1 l).Perm l) :
    sortingPass size shuffle = .ok (identitySequence size.toNat).reverse ∧
      sortingPass size shuffle = sortingPass size shuffle1 ∧
      List.insertionSort (· ≥ ·)
          (List.insertionSort (· ≤ ·)
            (shuffle (iota (List.replicate size.toNat 0) 0))).reverse
        = (List.insertionSort (· ≤ ·)
            (shuffle (iota (List.replicate size.toNat 0) 0))).reverse ∧
      (identitySequence size.toNat).reverse.length = size.toNat ∧
      ∀ t : Nat, t < size.toNat →
        (identitySequence size.toNat).reverse[t]? = some ((size.toNat : Int) - 1 - (t : Int)) := by
  refine ⟨sortingPass_eq size h0 shuffle hshuffle, ?_, ?_, by simp [identitySequence], ?_⟩
  · rw [sortingPass_eq size h0 shuffle hshuffle, sortingPass_eq size h0 shuffle1 hshuffle1]
  · rw [ascending_sort_eq size.toNat shuffle hshuffle]
    exact List.Sorted.insertionSort_eq (identitySequence_reverse_sorted _)
  · intro t ht
    have hlen : (identitySequence size.toNat).length = size.toNat := by
      simp [identitySequence]
    rw [List.getElem?_reverse (by rw [hlen]; exact ht), hlen]
    unfold identitySequence
    rw [List.getElem?_map, List.getElem?_range (by omega)]
    simp only [Option.map_some']
    congr 1
    omega

/-- Witness for C13: size 4, with a shuffle that reverses and one that rotates. -/
theorem sortingPass_descending_witness :
    (0 : Int) ≤ 4 ∧ sortingPass 4 (fun l => l.reverse) = .ok [3, 2, 1, 0] ∧
      sortingPass 4 (fun l => l.rotate 1) = .ok [3, 2, 1, 0] ∧
      (sortingPass 4 (fun l => l.reverse) = .ok (identitySequence (4 : Int).toNat).reverse ∧
        sortingPass 4 (fun l => l.reverse) = sortingPass 4 (fun l => l.rotate 1) ∧
        List.insertionSort (· ≥ ·)
            (List.insertionSort (· ≤ ·)
              ((fun l : List Int => l.reverse)
                (iota (List.replicate (4 : Int).toNat 0) 0))).reverse
          = (List.insertionSort (· ≤ ·)
              ((fun l : List Int => l.reverse)
                (iota (List.replicate (4 : Int).toNat 0) 0))).reverse ∧
        (identitySequence (4 : Int).toNat).reverse.length = (4 : Int).toNat ∧
        ∀ t : Nat, t < (4 : Int).toNat →
          (identitySequence (4 : Int).toNat).reverse[t]?
            = some ((((4 : Int).toNat : Nat) : Int) - 1 - (t : Int))) :=
  ⟨by decide, by decide, by decide,
    sortingPass_descending 4 (by decide) (fun l => l.reverse) (fun l => l.rotate 1)
      (fun l => List.reverse_perm l) (fun l => List.rotate_perm l 1)⟩


/-! ## `matrixMultiply`: index accesses -/

section MatrixAccess

variable {α : Type}

theorem readEntry_some_of_le {M : List (List α)} {i j w : Nat} (hi : i < M.length)
    (hrows : ∀ row ∈ M, w ≤ row.length) (hj : j < w) : ∃ v, readEntry M i j = some v := by
  have hrow : w ≤ (M[i]).length := hrows _ (List.getElem_mem hi)
  have hj1 : j < (M[i]).length := by omega
  exact ⟨(M[i])[j], (readEntry_eq_some_iff M i j _).2
    ⟨M[i], List.getElem?_eq_getElem hi, List.getElem?_eq_getElem hj1⟩⟩

variable [Zero α] [Add α] [Mul α]

/-- With rows of `A` of length at least `p` and `p` rows of `B` of length at least `m`,
the innermost loop uses only indices inside the vectors. -/
theorem dotLoop_in_range (A B : List (List α)) {m : Nat}
    (hA : ∀ row ∈ A, B.length ≤ row.length) (hB : ∀ row ∈ B, m ≤ row.length)
    {i j : Nat} (hi : i < A.length) (hj : j < m) :
    ∀ (fuel k : Nat) (C : List (List α)), IsMatrix C A.length m → B.length ≤ k + fuel →
      ∃ C1, dotLoop A B B.length i j fuel k C = .ok C1 ∧ IsMatrix C1 A.length m := by
  intro fuel
  induction fuel with
  | zero =>
    intro k C hC hfuel
    have hk : ¬ k < B.length := by omega
    exact ⟨C, by simp [dotLoop, hk], hC⟩
  | succ fuel ih =>
    intro k C hC hfuel
    unfold dotLoop
    by_cases hlt : k < B.length
    · obtain ⟨a, ha⟩ := readEntry_some_of_le hi hA hlt
      obtain ⟨b, hb⟩ := readEntry_some_of_le hlt hB hj
      simp only [hlt, if_true, ha, hb, readEntry_of_isMatrix hC hi hj]
      exact ih (k + 1) _ (isMatrix_writeEntry hC i j _) (by omega)
    · exact ⟨C, by simp [hlt], hC⟩

theorem colLoop_in_range (A B : List (List α)) {m : Nat}
    (hA : ∀ row ∈ A, B.length ≤ row.length) (hB : ∀ row ∈ B, m ≤ row.length)
    {i : Nat} (hi : i < A.length) :
    ∀ (fuel j : Nat) (C : List (List α)), IsMatrix C A.length m → m ≤ j + fuel →
      ∃ C1, colLoop A B m B.length i fuel j C = .ok C1 ∧ IsMatrix C1 A.length m := by
  intro fuel
  induction fuel with
  | zero =>
    intro j C hC hfuel
    have hj : ¬ j < m := by omega
    exact ⟨C, by simp [colLoop, hj], hC⟩
  | succ fuel ih =>
    intro j C hC hfuel
    unfold colLoop
    by_cases hlt : j < m
    · obtain ⟨C1, hrun, hC1⟩ := dotLoop_in_range A B hA hB hi hlt B.length 0 C hC (by omega)
      simp only [hlt, if_true, hrun]
      exact ih (j + 1) C1 hC1 (by omega)
    · exact ⟨C, by simp [hlt], hC⟩

theorem rowLoop_in_range (A B : List (List α)) {m : Nat}
    (hA : ∀ row ∈ A, B.length ≤ row.length) (hB : ∀ row ∈ B, m ≤ row.length) :
    ∀ (fuel i : Nat) (C : List (List α)), IsMatrix C A.length m → A.length ≤ i + fuel →
      ∃ C1, rowLoop A B A.length m B.length fuel i C = .ok C1 ∧ IsMatrix C1 A.length m := by
  intro fuel
  induction fuel with
  | zero =>
    intro i C hC hfuel
    have hi : ¬ i < A.length := by omega
    exact ⟨C, by simp [rowLoop, hi], hC⟩
  | succ fuel ih =>
    intro i C hC hfuel
    unfold rowLoop
    by_cases hlt : i < A.length
    · obtain ⟨C1, hrun, hC1⟩ := colLoop_in_range A B hA hB hlt m 0 C hC (by omega)
      simp only [hlt, if_true, hrun]
      exact ih (i + 1) C1 hC1 (by omega)
    · exact ⟨C, by simp [hlt], hC⟩

/-- No access is out of range when `B` has a first row `row0`, every row of `A` has at
least `|B|` entries and every row of `B` has at least `|row0|` entries. -/
theorem matrixMultiply_in_range (A B : List (List α)) (row0 : List α)
    (h0 : B[0]? = some row0) (hA : ∀ row ∈ A, B.length ≤ row.length)
    (hB : ∀ row ∈ B, row0.length ≤ row.length) :
    ∃ C, matrixMultiply A B = .ok C ∧ IsMatrix C A.length row0.length := by
  unfold matrixMultiply
  simp only [h0]
  exact rowLoop_in_range A B hA hB A.length 0 _ (isMatrix_zero _ _) (by omega)

theorem matrixMultiply_nil (A : List (List α)) :
    matrixMultiply A ([] : List (List α)) = .error .outOfRange := by
  simp [matrixMultiply]

/-- C14. `matrixMultiply` validates nothing.  All its index accesses are in range whenever
`B` has at least one row, every row of `A` has at least `|B|` entries and every row of `B`
has at least `|B[0]|` entries, in particular for two `100 × 100` matrices; when `B` has no
rows, the read of `B[0]` is out of range, whatever `A` is. -/
theorem matrixMultiply_accesses (A B : List (List α)) (row0 : List α)
    (h0 : B[0]? = some row0) (hA : ∀ row ∈ A, B.length ≤ row.length)
    (hB : ∀ row ∈ B, row0.length ≤ row.length) :
    (∃ C, matrixMultiply A B = .ok C ∧ C.length = A.length ∧
        ∀ row ∈ C, row.length = row0.length) ∧
      (∀ A1 B1 : List (List α), IsMatrix A1 100 100 → IsMatrix B1 100 100 →
        ∃ C, matrixMultiply A1 B1 = .ok C) ∧
      (∀ A1 : List (List α), matrixMultiply A1 ([] : List (List α)) = .error .outOfRange) := by
  refine ⟨?_, ?_, matrixMultiply_nil⟩
  · obtain ⟨C, hrun, hC⟩ := matrixMultiply_in_range A B row0 h0 hA hB
    exact ⟨C, hrun, hC.1, hC.2⟩
  · intro A1 B1 hA1 hB1
    obtain ⟨C, hrun, _⟩ := matrixMultiply_spec A1 B1 hA1 hB1 (by omega)
    exact ⟨C, hrun⟩

end MatrixAccess

/-- Witness for C14: two `2 × 3` matrices, which are not conformant, are multiplied
without any check because every row of `A` has at least `|B| = 2` entries. -/
theorem matrixMultiply_accesses_witness :
    ([[5, 6, 1], [7, 8, 9]] : List (List Int))[0]? = some [5, 6, 1] ∧
      (∀ row ∈ ([[1, 2, 3], [3, 4, 5]] : List (List Int)),
        ([[5, 6, 1], [7, 8, 9]] : List (List Int)).length ≤ row.length) ∧
      (∀ row ∈ ([[5, 6, 1], [7, 8, 9]] : List (List Int)),
        ([5, 6, 1] : List Int).length ≤ row.length) ∧
      matrixMultiply ([[1, 2, 3], [3, 4, 5]] : List (List Int)) [[5, 6, 1], [7, 8, 9]]
        = .ok [[19, 22, 19], [43, 50, 39]] ∧
      ((∃ C, matrixMultiply ([[1, 2, 3], [3, 4, 5]] : List (List Int)) [[5, 6, 1], [7, 8, 9]]
            = .ok C ∧
          C.length = ([[1, 2, 3], [3, 4, 5]] : List (List Int)).length ∧
          ∀ row ∈ C, row.length = ([5, 6, 1] : List Int).length) ∧
        (∀ A1 B1 : List (List Int), IsMatrix A1 100 100 → IsMatrix B1 100 100 →
          ∃ C, matrixMultiply A1 B1 = .ok C) ∧
        (∀ A1 : List (List Int),
          matrixMultiply A1 ([] : List (List Int)) = .error .outOfRange)) :=
  ⟨by decide, by decide, by decide, by decide,
    matrixMultiply_accesses [[1, 2, 3], [3, 4, 5]] [[5, 6, 1], [7, 8, 9]] [5, 6, 1]
      (by decide) (by decide) (by decide)⟩


/-! ## `fibonacci`: 64-bit range and buffer indices -/

theorem fib_93 : Nat.fib 93 = 12200160415121876738 := by decide

/-- C15. For every `n` with `0 ≤ n ≤ 92`, `fibonacci(n)` is the `n`-th Fibonacci number and
no addition of the sweep leaves the signed 64-bit range, so `fibonacci(60)` returns
`1548008755920`; the 93rd Fibonacci number exceeds `2^63 - 1`, and the 64-bit result for
`n = 93` is not the 93rd Fibonacci number. -/
theorem fibonacci_exact_up_to_92 (n : Int) (h0 : 0 ≤ n) (h92 : n ≤ 92) :
    fibonacci n = .ok (Nat.fib n.toNat : Int) ∧
      (∀ i : Nat, 2 ≤ i → (i : Int) ≤ n →
        fibBuffer (i - 1) = (Nat.fib (i - 1) : Int) ∧
        fibBuffer (i - 2) = (Nat.fib (i - 2) : Int) ∧
        InInt64 (fibBuffer (i - 1) + fibBuffer (i - 2)) ∧
        fibBuffer (i - 1) + fibBuffer (i - 2) = (Nat.fib i : Int)) ∧
      fibonacci 60 = .ok 1548008755920 ∧
      LLONG_MAX < (Nat.fib 93 : Int) ∧
      fibonacci 93 = .ok (-6246583658587674878) ∧
      fibonacci 93 ≠ .ok (Nat.fib 93 : Int) := by
  have h93 : fibonacci 93 = .ok (-6246583658587674878) := by
    rw [fibonacci_eq_fibBuffer 93 (by decide) (by decide)]
    exact congrArg Except.ok fibBuffer_93
  refine ⟨fibonacci_eq_fib n h0 h92, ?_, ?_, ?_, h93, ?_⟩
  · intro i hi hin
    obtain ⟨k, rfl⟩ : ∃ k, i = k + 2 := ⟨i - 2, by omega⟩
    have hk : k + 2 ≤ 92 := by omega
    obtain ⟨hb0, hb1⟩ := fibBuffer_eq_fib k (by omega)
    have hsum : (Nat.fib (k + 1) : Int) + (Nat.fib k : Int) = (Nat.fib (k + 2) : Int) := by
      rw [Nat.fib_add_two]
      push_cast
      ring
    have hle := fib_le_fib_92 (k + 2) hk
    have hnonneg := Int.natCast_nonneg (Nat.fib (k + 2))
    simp only [Nat.add_sub_cancel, show k + 2 - 1 = k + 1 from rfl]
    refine ⟨hb1, hb0, ?_, ?_⟩
    · rw [hb0, hb1, hsum]
      constructor <;> omega
    · rw [hb0, hb1, hsum]
  · rw [fibonacci_eq_fib 60 (by decide) (by decide)]
    exact congrArg Except.ok (by decide)
  · rw [fib_93]
    decide
  · rw [h93, fib_93]
    decide

/-- Witness for C15 at the configured argument `n = 60`. -/
theorem fibonacci_exact_up_to_92_witness :
    (0 : Int) ≤ 60 ∧ (60 : Int) ≤ 92 ∧
      (fibonacci 60 = .ok (Nat.fib (60 : Int).toNat : Int) ∧
        (∀ i : Nat, 2 ≤ i → (i : Int) ≤ 60 →
          fibBuffer (i - 1) = (Nat.fib (i - 1) : Int) ∧
          fibBuffer (i - 2) = (Nat.fib (i - 2) : Int) ∧
          InInt64 (fibBuffer (i - 1) + fibBuffer (i - 2)) ∧
          fibBuffer (i - 1) + fibBuffer (i - 2) = (Nat.fib i : Int)) ∧
        fibonacci 60 = .ok 1548008755920 ∧
        LLONG_MAX < (Nat.fib 93 : Int) ∧
        fibonacci 93 = .ok (-6246583658587674878) ∧
        fibonacci 93 ≠ .ok (Nat.fib 93 : Int)) :=
  ⟨by decide, by decide, fibonacci_exact_up_to_92 60 (by decide) (by decide)⟩

/-- C17 (amended). For every `n ≤ 1`, negative `n` included, `fibonacci(n)` returns `n`
without building or indexing the buffer (so `fibonacci(-5) = -5`); for every `n` with
`2 ≤ n` below the maximum `int` the buffer has `n + 1` entries and every index the sweep
reads or writes (`i`, `i-1`, `i-2` for `2 ≤ i ≤ n`, and `n`) lies in `[0, n]`. -/
theorem fibonacci_buffer_indices (n : Int) :
    (n ≤ 1 → fibonacci n = .ok n) ∧
      fibonacci (-5) = .ok (-5) ∧
      (2 ≤ n → n < INT_MAX →
        (List.replicate (wrapInt32 (n + 1)).toNat (0 : Int)).length = n.toNat + 1 ∧
        ∃ fib1 v,
          fibSweep n (n - 1).toNat 2
              (((List.replicate (wrapInt32 (n + 1)).toNat (0 : Int)).set 0 0).set 1 1)
            = .ok fib1 ∧
          fib1.length = n.toNat + 1 ∧ fib1[n.toNat]? = some v ∧ fibonacci n = .ok v ∧
          ∀ i : Nat, 2 ≤ i → (i : Int) ≤ n →
            i - 2 < fib1.length ∧ i - 1 < fib1.length ∧ i < fib1.length) := by
  refine ⟨fun h1 => by simp [fibonacci, h1], by decide, ?_⟩
  intro h2 hmax
  obtain ⟨N, rfl⟩ : ∃ N : Nat, n = (N : Int) := ⟨n.toNat, (Int.toNat_of_nonneg (by omega)).symm⟩
  have hN : 2 ≤ N := by omega
  have hmax1 : (N : Int) < 2147483647 := by unfold INT_MAX at hmax; exact hmax
  have hsize : (wrapInt32 ((N : Int) + 1)).toNat = N + 1 := by
    rw [wrapInt32_of_range _ (by omega) (by omega)]
    omega
  rw [hsize, Int.toNat_ofNat]
  refine ⟨by simp, ?_⟩
  obtain ⟨fib1, hsweep, hlen, hall⟩ := fibSweep_eq N (N - 1) 2
    (((List.replicate (N + 1) (0 : Int)).set 0 0).set 1 1) le_rfl (by omega) (by simp)
    (by
      intro j hj
      rw [List.getElem?_set, List.getElem?_set]
      rcases Nat.lt_succ_iff_lt_or_eq.1 hj with hj0 | hj1
      · have : j = 0 := by omega
        subst this
        simp [fibBuffer]
      · subst hj1
        simp [fibBuffer]
        omega)
    (by omega)
  have hfuel : ((N : Int) - 1).toNat = N - 1 := by omega
  refine ⟨fib1, fibBuffer N, by rw [hfuel]; exact hsweep, hlen, hall N le_rfl, ?_, ?_⟩
  · have := fibonacci_eq_fibBuffer (N : Int) h2 hmax
    rwa [Int.toNat_ofNat] at this
  · intro i hi hin
    rw [hlen]
    omega

/-- Witness for C17 (amended) at `n = 10`. -/
theorem fibonacci_buffer_indices_witness :
    (2 : Int) ≤ 10 ∧ (10 : Int) < INT_MAX ∧ fibonacci 10 = .ok 55 ∧
      (List.replicate (wrapInt32 ((10 : Int) + 1)).toNat (0 : Int)).length
        = (10 : Int).toNat + 1 ∧
      ∃ fib1 v,
        fibSweep 10 ((10 : Int) - 1).toNat 2
            (((List.replicate (wrapInt32 ((10 : Int) + 1)).toNat (0 : Int)).set 0 0).set 1 1)
          = .ok fib1 ∧
        fib1.length = (10 : Int).toNat + 1 ∧ fib1[(10 : Int).toNat]? = some v ∧
        fibonacci 10 = .ok v ∧
        ∀ i : Nat, 2 ≤ i → (i : Int) ≤ 10 →
          i - 2 < fib1.length ∧ i - 1 < fib1.length ∧ i < fib1.length :=
  ⟨by decide, by decide, by decide,
    ((fibonacci_buffer_indices 10).2.2 (by decide) (by decide)).1,
    ((fibonacci_buffer_indices 10).2.2 (by decide) (by decide)).2⟩

/-- C17 (as stated) fails at the maximum `int`: `n + 1` is not a valid size there, the
buffer of `n + 1` entries is not built and nothing is returned. -/
theorem fibonacci_max_int_no_buffer :
    (2 : Int) ≤ 2147483647 ∧ wrapInt32 (2147483647 + 1) < 0 ∧
      fibonacci 2147483647 = .error .badAlloc ∧
      ¬ ∃ v, fibonacci 2147483647 = .ok v := by
  have h : fibonacci 2147483647 = .error .badAlloc := by decide
  refine ⟨by decide, by decide, h, ?_⟩
  rintro ⟨v, hv⟩
  rw [h] at hv
  exact Except.noConfusion hv


/-! ## `calculatePrimes`: the running sum -/

theorem sum_range_le_sq (m : Nat) : ∑ k in Finset.range m, (k : Int) ≤ (m : Int) * m := by
  induction m with
  | zero => simp
  | succ m ih =>
    rw [Finset.sum_range_succ]
    push_cast
    nlinarith [Int.natCast_nonneg m]

theorem sum_Ico_le_sum_Ico {n m : Nat} (h : n ≤ m) :
    ∑ k in Finset.Ico 2 n, (k : Int) ≤ ∑ k in Finset.Ico 2 m, (k : Int) := by
  apply Finset.sum_le_sum_of_subset_of_nonneg
  · intro k hk
    rw [Finset.mem_Ico] at hk ⊢
    omega
  · intro k _ _
    exact Int.natCast_nonneg k

theorem primeSumBelow_le_sum_Ico (n : Nat) :
    primeSumBelow n ≤ ∑ k in Finset.Ico 2 n, (k : Int) := by
  unfold primeSumBelow
  apply Finset.sum_le_sum_of_subset_of_nonneg
  · intro p hp
    rw [Finset.mem_filter, Finset.mem_range] at hp
    rw [Finset.mem_Ico]
    exact ⟨hp.2.two_le, hp.1⟩
  · intro k _ _
    exact Int.natCast_nonneg k

/-- The sum of all integers in `[2, m)` is below `2^63` when `m` is at most `2^31 - 1`. -/
theorem sum_Ico_lt (m : Nat) (hm : (m : Int) ≤ 2147483647) :
    ∑ k in Finset.Ico 2 m, (k : Int) < 9223372036854775808 := by
  have h1 : ∑ k in Finset.Ico 2 m, (k : Int) ≤ ∑ k in Finset.range m, (k : Int) := by
    apply Finset.sum_le_sum_of_subset_of_nonneg
    · intro k hk
      rw [Finset.mem_Ico] at hk
      rw [Finset.mem_range]
      omega
    · intro k _ _
      exact Int.natCast_nonneg k
  have h2 := sum_range_le_sq m
  nlinarith [Int.natCast_nonneg m]

/-- Adding `n` to the sum of all integers in `[2, n)` stays below `2^63`. -/
theorem sum_Ico_succ_lt (n : Nat) (hn : 2 ≤ n) (hmax : (n : Int) < 2147483647) :
    ∑ k in Finset.Ico 2 n, (k : Int) + (n : Int) < 9223372036854775808 := by
  have h := sum_Ico_lt (n + 1) (by push_cast; omega)
  rwa [Finset.sum_Ico_succ_top hn] at h

/-- One iteration of the outer loop from the state `(n, primes below n summed)` leads to
the state `(n + 1, primes below n + 1 summed)`: the 64-bit addition does not wrap. -/
theorem primeLoop_step (limit : Int) (hmax : limit ≤ INT_MAX) (n fuel : Nat) (hn : 2 ≤ n)
    (hlt : (n : Int) < limit) :
    primeLoop limit (fuel + 1) n (primeSumBelow n)
      = primeLoop limit fuel (n + 1) (primeSumBelow (n + 1)) := by
  have hmax1 : (n : Int) < 2147483647 := by unfold INT_MAX at hmax; omega
  rw [primeLoop]
  simp only [hlt, if_true, trialDivision_prime n hn]
  congr 1
  rw [primeSumBelow_succ]
  by_cases hp : Nat.Prime n
  · simp only [hp, decide_True, if_true]
    apply wrapInt64_of_range
    · have := primeSumBelow_nonneg n
      omega
    · have h1 := primeSumBelow_le_sum_Ico n
      have h2 := sum_Ico_succ_lt n hn (by omega)
      omega
  · simp [hp]

/-- C16. For every 32-bit `int` limit the running sum of `calculatePrimes` stays in the
signed 64-bit range: every partial sum is at most the sum of all integers in `[2, limit)`,
which is below `2^63`, so each iteration adds without wrapping and the value returned is
the exact sum of the primes below `limit`. -/
theorem calculatePrimes_no_wrap (limit : Int) (hmin : -2147483648 ≤ limit)
    (hmax : limit ≤ INT_MAX) :
    calculatePrimes limit = .ok (primeSumBelow limit.toNat) ∧
      ∑ k in Finset.Ico 2 limit.toNat, (k : Int) < 9223372036854775808 ∧
      (∀ n : Nat, 2 ≤ n → (n : Int) ≤ limit →
        0 ≤ primeSumBelow n ∧
        primeSumBelow n ≤ ∑ k in Finset.Ico 2 limit.toNat, (k : Int) ∧
        InInt64 (primeSumBelow n)) ∧
      (∀ n fuel : Nat, 2 ≤ n → (n : Int) < limit →
        InInt64 (primeSumBelow n + (n : Int)) ∧
        primeSumBelow (n + 1) = primeSumBelow n + (if Nat.Prime n then (n : Int) else 0) ∧
        primeLoop limit (fuel + 1) n (primeSumBelow n)
          = primeLoop limit fuel (n + 1) (primeSumBelow (n + 1))) := by
  have hbound : ∑ k in Finset.Ico 2 limit.toNat, (k : Int) < 9223372036854775808 :=
    sum_Ico_lt limit.toNat (by unfold INT_MAX at hmax; omega)
  refine ⟨calculatePrimes_total limit hmax, hbound, ?_, ?_⟩
  · intro n hn hle
    have h0 := primeSumBelow_nonneg n
    have h1 : primeSumBelow n ≤ ∑ k in Finset.Ico 2 limit.toNat, (k : Int) :=
      (primeSumBelow_le_sum_Ico n).trans (sum_Ico_le_sum_Ico (by omega))
    exact ⟨h0, h1, by constructor <;> omega⟩
  · intro n fuel hn hlt
    refine ⟨?_, primeSumBelow_succ n, primeLoop_step limit hmax n fuel hn hlt⟩
    have h0 := primeSumBelow_nonneg n
    have h1 := primeSumBelow_le_sum_Ico n
    have h2 := sum_Ico_succ_lt n hn (by unfold INT_MAX at hmax; omega)
    constructor <;> omega

/-- Witness for C16 at the limit 10: the running sums are 0, 2, 5, 5, 10, 10, 17, 17, 17. -/
theorem calculatePrimes_no_wrap_witness :
    (-2147483648 : Int) ≤ 10 ∧ (10 : Int) ≤ INT_MAX ∧ calculatePrimes 10 = .ok 17 ∧
      (calculatePrimes 10 = .ok (primeSumBelow (10 : Int).toNat) ∧
        ∑ k in Finset.Ico 2 (10 : Int).toNat, (k : Int) < 9223372036854775808 ∧
        (∀ n : Nat, 2 ≤ n → (n : Int) ≤ 10 →
          0 ≤ primeSumBelow n ∧
          primeSumBelow n ≤ ∑ k in Finset.Ico 2 (10 : Int).toNat, (k : Int) ∧
          InInt64 (primeSumBelow n)) ∧
        (∀ n fuel : Nat, 2 ≤ n → (n : Int) < 10 →
          InInt64 (primeSumBelow n + (n : Int)) ∧
          primeSumBelow (n + 1) = primeSumBelow n + (if Nat.Prime n then (n : Int) else 0) ∧
          primeLoop 10 (fuel + 1) n (primeSumBelow n)
            = primeLoop 10 fuel (n + 1) (primeSumBelow (n + 1)))) :=
  ⟨by decide, by decide, by decide, calculatePrimes_no_wrap 10 (by decide) (by decide)⟩

end CPUStressTest
